import Mathlib

/-!
Merkle tree operations of libtransmission (`merkle.h`, `merkle.cpp`)

A shallow embedding of the BitTorrent v2 (BEP-0052) merkle helpers together
with the properties established about them.

Conventions of the embedding:

* `int64_t` values are integers, every left shift is wrapped to the signed
  64-bit range (`shl_int64`), so that the absence of overflow is a theorem and
  not an assumption.
* `uint` values are natural numbers; additions on them are reduced modulo
  `2^32`.
-/

namespace Merkle

/-! ## Machine integers -/

/-- Twos-complement wrap of an integer into the range of `int64_t`. -/
def wrap_int64 (x : Int) : Int := (x + 2 ^ 63) % 2 ^ 64 - 2 ^ 63

/-- The expression `a << s` on an `int64_t` operand. -/
def shl_int64 (a : Int) (s : Nat) : Int := wrap_int64 (a * 2 ^ s)

/-- Addition on `uint` (32 bits, unsigned). -/
def uint_add (a b : Nat) : Nat := (a + b) % 2 ^ 32

/-! ## `calculateLayerNumber` (merkle.cpp, lines 105-140) -/

/-- Find which layer of the merkle tree a piece length corresponds to.
`none` is the empty `std::optional`. -/
def calculateLayerNumber (piece_length : Int) : Option Nat :=
  let bigga : Int := shl_int64 1 14 -- Start at 2^14 == 16 KiB
  let offset : Nat := 0
  -- 17 not 32, do not want to overflow int64_t
  let offset := if shl_int64 bigga (uint_add 17 offset) ≤ piece_length then uint_add offset 17 else offset
  let offset := if shl_int64 bigga (uint_add 16 offset) ≤ piece_length then uint_add offset 16 else offset
  let offset := if shl_int64 bigga (uint_add 8 offset) ≤ piece_length then uint_add offset 8 else offset
  let offset := if shl_int64 bigga (uint_add 4 offset) ≤ piece_length then uint_add offset 4 else offset
  let offset := if shl_int64 bigga (uint_add 2 offset) ≤ piece_length then uint_add offset 2 else offset
  let offset := if shl_int64 bigga (uint_add 1 offset) ≤ piece_length then uint_add offset 1 else offset
  if shl_int64 bigga offset = piece_length then some offset else none



/-! ## Outcomes and the program state -/

/-- How a call ends: it returns a value, it performs a vector access that is out of
range (undefined behaviour in the source), or it is still looping when the step budget
given to the model is used up. -/
inductive Outcome (α : Type) where
  | ret : α → Outcome α
  | out_of_range : Outcome α
  | out_of_fuel : Outcome α
  deriving DecidableEq

/-- The mutable state of the translation unit: the function-local static vector
`empty_hashes` of `merkle_empty_hash`, and a ghost counter of the `tr_sha256` calls that
returned an empty optional. -/
structure MemoState (D : Type) where
  empty_hashes : List D
  hash_failures : Nat
  deriving DecidableEq

/-- The collaborators of `merkle.cpp` that are declared elsewhere (`crypto-utils.h`),
over a digest type `D`: the value `EMPTY_MERKLE_HASH = {}` and the two-argument
`tr_sha256`, which returns an optional digest. -/
structure HashEnv (D : Type) where
  EMPTY_MERKLE_HASH : D
  tr_sha256 : D → D → Option D

/-- State at program start: `empty_hashes = { EMPTY_MERKLE_HASH }`. -/
def MemoState.initial {D : Type} (E : HashEnv D) : MemoState D :=
  { empty_hashes := [E.EMPTY_MERKLE_HASH], hash_failures := 0 }

/-- Sequencing: run the continuation on a returned value, stop on anything else. -/
def andThen {α β S : Type} (x : Outcome α × S) (f : α → S → Outcome β × S) : Outcome β × S :=
  match x with
  | (Outcome.ret a, s) => f a s
  | (Outcome.out_of_range, s) => (Outcome.out_of_range, s)
  | (Outcome.out_of_fuel, s) => (Outcome.out_of_fuel, s)

/-- A layer: `std::pair<uint, std::vector<tr_sha256_digest_t>>`. -/
abbrev merkle_layer (D : Type) := Nat × List D

/-- Set a MAX_LAYER just in case to avoid forever looping. -/
def MAX_LAYER : Nat := 100

/-! ## `merkle_empty_hash` (merkle.cpp, lines 5-23) -/

/-- The memoised empty hash of a layer. `fuel` bounds the number of iterations of the
`while` loop; an iteration whose hash fails pushes nothing and loops again. -/
def merkle_empty_hash {D : Type} (E : HashEnv D) :
    Nat → Nat → MemoState D → Outcome D × MemoState D
  | fuel, layer, st =>
    if layer ≥ st.empty_hashes.length then
      match fuel with
      | 0 => (Outcome.out_of_fuel, st)
      | fuel1 + 1 =>
        match st.empty_hashes.getLast? with
        | none => (Outcome.out_of_range, st) -- `back()` of an empty vector
        | some back =>
          match E.tr_sha256 back back with
          | some h =>
            merkle_empty_hash E fuel1 layer { st with empty_hashes := st.empty_hashes ++ [h] }
          | none =>
            -- ? not sure how this failed
            merkle_empty_hash E fuel1 layer { st with hash_failures := st.hash_failures + 1 }
    else
      match st.empty_hashes[layer]? with
      | some d => (Outcome.ret d, st)
      | none => (Outcome.out_of_range, st)

/-! ## `reduceMerkleLayer` (merkle.cpp, lines 44-70) -/

/-- The `for` loop of `reduceMerkleLayer`. The list argument is the part of `in` from
index `i` on, `out` the vector built so far. `merkle_empty_hash` is called in every
iteration, also when a right neighbour exists. A failed pair hash returns `{}`. -/
def reduceMerkleLayer_loop {D : Type} (E : HashEnv D) (fuel layer_number : Nat) :
    List D → List D → MemoState D → Outcome (List D) × MemoState D
  | [], out, st => (Outcome.ret out, st)
  | [l], out, st =>
    andThen (merkle_empty_hash E fuel layer_number st) fun r st1 =>
      match E.tr_sha256 l r with
      | some p => (Outcome.ret (out ++ [p]), st1)
      | none => (Outcome.ret [], { st1 with hash_failures := st1.hash_failures + 1 })
  | l :: r :: rest, out, st =>
    andThen (merkle_empty_hash E fuel layer_number st) fun _ st1 =>
      match E.tr_sha256 l r with
      | some p => reduceMerkleLayer_loop E fuel layer_number rest (out ++ [p]) st1
      | none => (Outcome.ret [], { st1 with hash_failures := st1.hash_failures + 1 })

/-- Generate the next layer of merkle hashes. The parameter is an `int` in the source
and is converted back to `uint` at the call of `merkle_empty_hash`; the two conversions
cancel. -/
def reduceMerkleLayer {D : Type} (E : HashEnv D) (fuel layer_number : Nat) (input : List D)
    (st : MemoState D) : Outcome (List D) × MemoState D :=
  reduceMerkleLayer_loop E fuel layer_number input [] st

/-! ## `reduceMerkleLayerTo` (merkle.cpp, lines 72-81) -/

/-- The `for` loop of `reduceMerkleLayerTo`; the first numeric argument counts the
iterations that remain before `cur_layer` reaches `layer_number`. -/
def reduceMerkleLayerTo_loop {D : Type} (E : HashEnv D) (fuel layer_number : Nat) :
    Nat → Nat → List D → MemoState D → Outcome (List D) × MemoState D
  | 0, _, out, st => (Outcome.ret out, st)
  | n + 1, cur_layer, out, st =>
    if cur_layer < layer_number then
      andThen (reduceMerkleLayer E fuel cur_layer out st) fun out1 st1 =>
        reduceMerkleLayerTo_loop E fuel layer_number n (uint_add cur_layer 1) out1 st1
    else (Outcome.ret out, st)

/-- Reduce this layer of the merkle tree to a higher layer. -/
def reduceMerkleLayerTo {D : Type} (E : HashEnv D) (fuel layer_number : Nat)
    (input : merkle_layer D) (st : MemoState D) : Outcome (merkle_layer D) × MemoState D :=
  andThen (reduceMerkleLayerTo_loop E fuel layer_number (layer_number - input.1) input.1
    input.2 st) fun out st1 => (Outcome.ret (layer_number, out), st1)

/-! ## `reduceMerkleLayerToRoot` and `validatePieceLayers` (merkle.cpp, lines 83-103) -/

/-- The `for` loop of `reduceMerkleLayerToRoot`; the first numeric argument counts the
iterations that remain before `cur_layer` reaches `MAX_LAYER`. -/
def reduceMerkleLayerToRoot_loop {D : Type} (E : HashEnv D) (fuel : Nat) :
    Nat → Nat → List D → MemoState D → Outcome (List D) × MemoState D
  | 0, _, out, st => (Outcome.ret out, st)
  | n + 1, cur_layer, out, st =>
    if cur_layer < MAX_LAYER ∧ out.length > 1 then
      andThen (reduceMerkleLayer E fuel cur_layer out st) fun out1 st1 =>
        reduceMerkleLayerToRoot_loop E fuel n (uint_add cur_layer 1) out1 st1
    else (Outcome.ret out, st)

/-- Reduce this layer of the merkle tree all the way to the root hash. The body of
`if (out.size() != 1)` is empty in the source, so the function goes on to `out[0]`. -/
def reduceMerkleLayerToRoot {D : Type} (E : HashEnv D) (fuel : Nat)
    (input : merkle_layer D) (st : MemoState D) : Outcome D × MemoState D :=
  andThen (reduceMerkleLayerToRoot_loop E fuel (MAX_LAYER - input.1) input.1 input.2 st)
    fun out st1 =>
      match out[0]? with
      | some d => (Outcome.ret d, st1)
      | none => (Outcome.out_of_range, st1)

/-- Compare the root found by reduction with the expected root. -/
def validatePieceLayers {D : Type} [DecidableEq D] (E : HashEnv D) (fuel : Nat) (root : D)
    (layer : merkle_layer D) (st : MemoState D) : Outcome Bool × MemoState D :=
  andThen (reduceMerkleLayerToRoot E fuel layer st) fun found_root st1 =>
    (Outcome.ret (decide (root = found_root)), st1)

/-! ## `parsePieceLayersEntry` (merkle.cpp, lines 25-39) -/

/-- One byte of a `std::string_view`. -/
abbrev Byte := Fin 256

/-- Modelled from the spec: the constant `TR_SHA256_DIGEST_LEN` of `crypto-utils.h`, which
is not part of the sources at hand; the digest width is 32 bytes. -/
def TR_SHA256_DIGEST_LEN : Nat := 32

/-- Modelled from the spec: the type `tr_sha256_digest_t` of `crypto-utils.h`, a fixed-size
sequence of 32 bytes compared byte for byte. -/
structure tr_sha256_digest_t where
  bytes : List Byte
  size_eq : bytes.length = TR_SHA256_DIGEST_LEN
  deriving DecidableEq

/-- Modelled from the spec: the helper `tr_sha256_from_raw` of `crypto-utils.h`, which is
not part of the sources at hand. The spec makes the key valid when its length equals the
digest width exactly, and the root is then the key bytes reinterpreted as one digest. -/
def tr_sha256_from_raw (k : List Byte) : Option tr_sha256_digest_t :=
  if h : k.length = TR_SHA256_DIGEST_LEN then some ⟨k, h⟩ else none

/-- The value `sizeof(tr_sha256_digest_t)`. -/
def sizeof_digest : Nat := TR_SHA256_DIGEST_LEN

/-- The storage of `hashes` after `hashes.resize(n)`: `n` value-initialised digests laid
out one after the other. -/
def resized_storage (n : Nat) : List Byte := List.replicate (n * sizeof_digest) 0

/-- The call `std::copy_n(src, count, dest)` on byte buffers: the first `count` bytes of
`dest` are overwritten by the first `count` bytes of `src`. -/
def copy_n (src : List Byte) (count : Nat) (dest : List Byte) : List Byte :=
  src.take count ++ dest.drop count

/-- Element `i` of a vector of digests, read from its storage. -/
def digest_at (storage : List Byte) (i : Nat) : tr_sha256_digest_t :=
  ⟨List.ofFn fun j : Fin TR_SHA256_DIGEST_LEN => storage.getD (sizeof_digest * i + j.val) 0,
    List.length_ofFn _⟩

/-- Parse the string views of a piece layers entry; the result is `[root, layer_hashes]`. -/
def parsePieceLayersEntry (k vs : List Byte) :
    Option (tr_sha256_digest_t × List tr_sha256_digest_t) :=
  match tr_sha256_from_raw k with
  | none => none -- k needs to be a hash
  | some y =>
    if vs.length % TR_SHA256_DIGEST_LEN ≠ 0 then
      none -- vs size needs to be a multiple of the digest size
    else
      let n := vs.length / sizeof_digest
      let storage := copy_n vs vs.length (resized_storage n)
      some (y, (List.range n).map (digest_at storage))

/-! ## Reference functions used to state the properties -/

/-- The pair hash as a total function; it agrees with `tr_sha256` whenever that succeeds. -/
def pairD {D : Type} (E : HashEnv D) (a b : D) : D :=
  (E.tr_sha256 a b).getD E.EMPTY_MERKLE_HASH

/-- The empty hash of a layer by its recursive definition. -/
def emptyHashSpec {D : Type} (E : HashEnv D) : Nat → D
  | 0 => E.EMPTY_MERKLE_HASH
  | n + 1 => pairD E (emptyHashSpec E n) (emptyHashSpec E n)

/-- The memo table holds, at every index it has, the empty hash of that layer, and it is
not empty. Every state reached from the initial one satisfies this. -/
def MemoInv {D : Type} (E : HashEnv D) (tbl : List D) : Prop :=
  tbl ≠ [] ∧ ∀ i d, tbl[i]? = some d → d = emptyHashSpec E i

/-- One reduction step on plain lists, with `e` standing for the empty hash of the layer. -/
def reduceSpec {D : Type} (E : HashEnv D) (e : D) : List D → List D
  | [] => []
  | [l] => [pairD E l e]
  | l :: r :: rest => pairD E l r :: reduceSpec E e rest

/-- The loop of `reduceMerkleLayerToRoot` on plain lists. -/
def rootLoopSpec {D : Type} (E : HashEnv D) : Nat → Nat → List D → List D
  | 0, _, out => out
  | n + 1, cur_layer, out =>
    if cur_layer < MAX_LAYER ∧ out.length > 1 then
      rootLoopSpec E n (cur_layer + 1) (reduceSpec E (emptyHashSpec E cur_layer) out)
    else out

/-! ## A small hash environment for evaluation -/

/-- A collision-free toy environment on natural numbers: the pair hash is the
successor of the Cantor pairing, the empty hash is `0`. -/
def toyEnv : HashEnv Nat :=
  { EMPTY_MERKLE_HASH := 0, tr_sha256 := fun a b => some (Nat.pair a b + 1) }

/-- An environment whose pair hash always fails. -/
def failEnv : HashEnv Nat :=
  { EMPTY_MERKLE_HASH := 0, tr_sha256 := fun _ _ => none }

/-- One probing step of `calculateLayerNumber`, named for the proofs only. -/
def probe (p : Int) (step offset : Nat) : Nat :=
  if shl_int64 (shl_int64 1 14) (uint_add step offset) ≤ p then uint_add offset step else offset


/-- The digest whose 32 bytes all have the value `b`. -/
def const_digest (b : Byte) : tr_sha256_digest_t :=
  ⟨List.replicate TR_SHA256_DIGEST_LEN b, List.length_replicate _ _⟩

/-! ## The 32-byte environment, `hashBlock`, query sequences and traces -/

/-- The hash environment on 32-byte digests. `EMPTY_MERKLE_HASH = {}` (merkle.h, line 33)
is the value-initialised array, every byte zero; the pair hash stays a parameter. -/
def sha256Env (pair : tr_sha256_digest_t → tr_sha256_digest_t → Option tr_sha256_digest_t) :
    HashEnv tr_sha256_digest_t :=
  { EMPTY_MERKLE_HASH := const_digest 0, tr_sha256 := pair }

/-- A pair hash on 32-byte digests that always succeeds, for evaluation only. -/
def toyPair32 (a b : tr_sha256_digest_t) : Option tr_sha256_digest_t :=
  some ⟨List.ofFn fun j : Fin TR_SHA256_DIGEST_LEN =>
    a.bytes.getD j.val 0 + 2 * b.bytes.getD j.val 0 + 1, List.length_ofFn _⟩

/-- The memo state after a sequence of `merkle_empty_hash` queries, made one after the
other; only the state of each call is kept. -/
def run_queries {D : Type} (E : HashEnv D) (fuel : Nat) : List Nat → MemoState D → MemoState D
  | [], st => st
  | q :: qs, st => run_queries E fuel qs (merkle_empty_hash E fuel q st).2

/-- `hashBlock` (merkle.h, lines 38-48): hash a single leaf block. The one-argument
`tr_sha256` of `crypto-utils.h` is the parameter `tr_sha256_block`. The second component
is a ghost log of the buffers handed to that primitive. -/
def hashBlock {D : Type} (E : HashEnv D) (tr_sha256_block : List Byte → Option D)
    (arg : List Byte) : Option D × List (List Byte) :=
  let length := arg.length
  if length = 0 then (some E.EMPTY_MERKLE_HASH, [])
  else (tr_sha256_block arg, [arg])

/-- `calculateLayerNumber` once more, statement for statement, returning next to its
result the shift amounts of the seven `bigga << ...` expressions in evaluation order
(one per comparison). -/
def calculateLayerNumber_traced (piece_length : Int) : Option Nat × List Nat :=
  let bigga : Int := shl_int64 1 14
  let offset : Nat := 0
  let s1 := uint_add 17 offset
  let offset := if shl_int64 bigga s1 ≤ piece_length then uint_add offset 17 else offset
  let s2 := uint_add 16 offset
  let offset := if shl_int64 bigga s2 ≤ piece_length then uint_add offset 16 else offset
  let s3 := uint_add 8 offset
  let offset := if shl_int64 bigga s3 ≤ piece_length then uint_add offset 8 else offset
  let s4 := uint_add 4 offset
  let offset := if shl_int64 bigga s4 ≤ piece_length then uint_add offset 4 else offset
  let s5 := uint_add 2 offset
  let offset := if shl_int64 bigga s5 ≤ piece_length then uint_add offset 2 else offset
  let s6 := uint_add 1 offset
  let offset := if shl_int64 bigga s6 ≤ piece_length then uint_add offset 1 else offset
  (if shl_int64 bigga offset = piece_length then some offset else none,
    [s1, s2, s3, s4, s5, s6, offset])

/-- In the words of the spec: apply `reduceMerkleLayer` `k` times, at the layer numbers
`cur_layer`, `cur_layer + 1`, ... in that order. -/
def reduceMerkleLayer_times {D : Type} (E : HashEnv D) (fuel : Nat) :
    Nat → Nat → List D → MemoState D → Outcome (List D) × MemoState D
  | 0, _, hashes, st => (Outcome.ret hashes, st)
  | k + 1, cur_layer, hashes, st =>
    andThen (reduceMerkleLayer E fuel cur_layer hashes st) fun out st1 =>
      reduceMerkleLayer_times E fuel k (cur_layer + 1) out st1

/-- The reference reduction applied `k` times from layer `cur_layer` on. -/
def reduceSpec_times {D : Type} (E : HashEnv D) : Nat → Nat → List D → List D
  | 0, _, hashes => hashes
  | k + 1, cur_layer, hashes =>
    reduceSpec_times E k (cur_layer + 1) (reduceSpec E (emptyHashSpec E cur_layer) hashes)

/-! ## The hash primitive as a sequence of calls

In the definitions above the pair hash is a function of its two arguments, so a hash
that fails on some pair fails on it for ever. The source makes no such assumption: the
`while` loop of `merkle_empty_hash` calls `tr_sha256` again after a failure. The
definitions of this section repeat `merkle_empty_hash`, `reduceMerkleLayer`,
`reduceMerkleLayerToRoot` and `validatePieceLayers` with a primitive whose result may
also depend on the number of the call. -/

/-- The collaborators of `merkle.cpp`, with the two-argument `tr_sha256` given call by
call: `tr_sha256_at k a b` is what call number `k` of the run (counted from 0) returns on
the digests `a` and `b`. -/
structure CallEnv (D : Type) where
  EMPTY_MERKLE_HASH : D
  tr_sha256_at : Nat → D → D → Option D

/-- The state of the run: the static vector `empty_hashes`, and two ghost counters, the
number of `tr_sha256` calls made and the number of those that returned an empty
optional. -/
structure CallState (D : Type) where
  empty_hashes : List D
  hash_failures : Nat
  hash_calls : Nat
  deriving DecidableEq

/-- State at program start: `empty_hashes = { EMPTY_MERKLE_HASH }`, no call made. -/
def CallState.initial {D : Type} (E : CallEnv D) : CallState D :=
  { empty_hashes := [E.EMPTY_MERKLE_HASH], hash_failures := 0, hash_calls := 0 }

/-- One call `tr_sha256(a, b)`: the result of the call with the current number, and the
counters moved on. -/
def Transient.tr_sha256 {D : Type} (E : CallEnv D) (a b : D) (st : CallState D) :
    Option D × CallState D :=
  match E.tr_sha256_at st.hash_calls a b with
  | some h => (some h, { st with hash_calls := st.hash_calls + 1 })
  | none =>
    (none, { st with hash_calls := st.hash_calls + 1, hash_failures := st.hash_failures + 1 })

/-- `merkle_empty_hash` (merkle.cpp, lines 5-23); `fuel` bounds the iterations of the
`while` loop. After a failed hash nothing is pushed and the loop runs again, with a new
call of the primitive. -/
def Transient.merkle_empty_hash {D : Type} (E : CallEnv D) :
    Nat → Nat → CallState D → Outcome D × CallState D
  | fuel, layer, st =>
    if layer ≥ st.empty_hashes.length then
      match fuel with
      | 0 => (Outcome.out_of_fuel, st)
      | fuel1 + 1 =>
        match st.empty_hashes.getLast? with
        | none => (Outcome.out_of_range, st) -- `back()` of an empty vector
        | some back =>
          match Transient.tr_sha256 E back back st with
          | (some h, st1) =>
            Transient.merkle_empty_hash E fuel1 layer
              { st1 with empty_hashes := st1.empty_hashes ++ [h] }
          | (none, st1) =>
            -- ? not sure how this failed
            Transient.merkle_empty_hash E fuel1 layer st1
    else
      match st.empty_hashes[layer]? with
      | some d => (Outcome.ret d, st)
      | none => (Outcome.out_of_range, st)

/-- The `for` loop of `reduceMerkleLayer` (merkle.cpp, lines 44-70); arguments as in
`reduceMerkleLayer_loop`. A failed pair hash returns `{}`. -/
def Transient.reduceMerkleLayer_loop {D : Type} (E : CallEnv D) (fuel layer_number : Nat) :
    List D → List D → CallState D → Outcome (List D) × CallState D
  | [], out, st => (Outcome.ret out, st)
  | [l], out, st =>
    andThen (Transient.merkle_empty_hash E fuel layer_number st) fun r st1 =>
      match Transient.tr_sha256 E l r st1 with
      | (some p, st2) => (Outcome.ret (out ++ [p]), st2)
      | (none, st2) => (Outcome.ret [], st2)
  | l :: r :: rest, out, st =>
    andThen (Transient.merkle_empty_hash E fuel layer_number st) fun _ st1 =>
      match Transient.tr_sha256 E l r st1 with
      | (some p, st2) => Transient.reduceMerkleLayer_loop E fuel layer_number rest (out ++ [p]) st2
      | (none, st2) => (Outcome.ret [], st2)

/-- Generate the next layer of merkle hashes. -/
def Transient.reduceMerkleLayer {D : Type} (E : CallEnv D) (fuel layer_number : Nat)
    (input : List D) (st : CallState D) : Outcome (List D) × CallState D :=
  Transient.reduceMerkleLayer_loop E fuel layer_number input [] st

/-- The `for` loop of `reduceMerkleLayerToRoot` (merkle.cpp, lines 87-90). -/
def Transient.reduceMerkleLayerToRoot_loop {D : Type} (E : CallEnv D) (fuel : Nat) :
    Nat → Nat → List D → CallState D → Outcome (List D) × CallState D
  | 0, _, out, st => (Outcome.ret out, st)
  | n + 1, cur_layer, out, st =>
    if cur_layer < MAX_LAYER ∧ out.length > 1 then
      andThen (Transient.reduceMerkleLayer E fuel cur_layer out st) fun out1 st1 =>
        Transient.reduceMerkleLayerToRoot_loop E fuel n (uint_add cur_layer 1) out1 st1
    else (Outcome.ret out, st)

/-- Reduce this layer of the merkle tree all the way to the root hash (merkle.cpp, lines
83-97). -/
def Transient.reduceMerkleLayerToRoot {D : Type} (E : CallEnv D) (fuel : Nat)
    (input : merkle_layer D) (st : CallState D) : Outcome D × CallState D :=
  andThen (Transient.reduceMerkleLayerToRoot_loop E fuel (MAX_LAYER - input.1) input.1
    input.2 st) fun out st1 =>
      match out[0]? with
      | some d => (Outcome.ret d, st1)
      | none => (Outcome.out_of_range, st1)

/-- Compare the root found by reduction with the expected root (merkle.cpp, lines
99-103). -/
def Transient.validatePieceLayers {D : Type} [DecidableEq D] (E : CallEnv D) (fuel : Nat)
    (root : D) (layer : merkle_layer D) (st : CallState D) : Outcome Bool × CallState D :=
  andThen (Transient.reduceMerkleLayerToRoot E fuel layer st) fun found_root st1 =>
    (Outcome.ret (decide (root = found_root)), st1)

/-- A primitive on 32-byte digests whose call number 2 fails and whose other calls
succeed, for evaluation. -/
def failOnceEnv : CallEnv tr_sha256_digest_t :=
  { EMPTY_MERKLE_HASH := const_digest 0,
    tr_sha256_at := fun k a b => if k = 2 then none else toyPair32 a b }

/-- A call-by-call primitive that gives, at every call, what the pair hash of `E` gives. -/
def CallEnv.ofHashEnv {D : Type} (E : HashEnv D) : CallEnv D :=
  { EMPTY_MERKLE_HASH := E.EMPTY_MERKLE_HASH, tr_sha256_at := fun _ a b => E.tr_sha256 a b }

/-- Forget the call counter of a state. -/
def CallState.toMemoState {D : Type} (st : CallState D) : MemoState D :=
  { empty_hashes := st.empty_hashes, hash_failures := st.hash_failures }

/-- The outcome of a call together with the final state without its call counter. -/
def forgetCalls {α D : Type} (r : Outcome α × CallState D) : Outcome α × MemoState D :=
  (r.1, r.2.toMemoState)

/-! # Theorems -/

theorem calculateLayerNumber_pow (k : Nat) (hk : k ≤ 48) :
    calculateLayerNumber (16384 * 2 ^ k) = some k := by
  interval_cases k <;> decide

theorem calculateLayerNumber_eq_probe (p : Int) :
    calculateLayerNumber p =
      if shl_int64 (shl_int64 1 14)
          (probe p 1 (probe p 2 (probe p 4 (probe p 8 (probe p 16 (probe p 17 0)))))) = p
      then some (probe p 1 (probe p 2 (probe p 4 (probe p 8 (probe p 16 (probe p 17 0))))))
      else none := rfl

theorem probe_le (p : Int) (step offset : Nat) : probe p step offset ≤ offset + step := by
  unfold probe uint_add
  split
  · exact Nat.mod_le _ _
  · omega

theorem shl_bigga_exact (o : Nat) (ho : o ≤ 48) :
    shl_int64 (shl_int64 1 14) o = 16384 * 2 ^ o := by
  interval_cases o <;> decide

theorem calculateLayerNumber_some {p : Int} {k : Nat}
    (h : calculateLayerNumber p = some k) : k ≤ 48 ∧ p = 16384 * 2 ^ k := by
  rw [calculateLayerNumber_eq_probe] at h
  have b1 := probe_le p 17 0
  have b2 := probe_le p 16 (probe p 17 0)
  have b3 := probe_le p 8 (probe p 16 (probe p 17 0))
  have b4 := probe_le p 4 (probe p 8 (probe p 16 (probe p 17 0)))
  have b5 := probe_le p 2 (probe p 4 (probe p 8 (probe p 16 (probe p 17 0))))
  have b6 := probe_le p 1 (probe p 2 (probe p 4 (probe p 8 (probe p 16 (probe p 17 0)))))
  generalize probe p 1 (probe p 2 (probe p 4 (probe p 8 (probe p 16 (probe p 17 0))))) = o at h b6
  have ho : o ≤ 48 := by omega
  split at h
  · rename_i hfin
    simp only [Option.some.injEq] at h
    subst h
    exact ⟨ho, by rw [← hfin, shl_bigga_exact o ho]⟩
  · exact absurd h (by simp)

/-- C1: for every 64-bit signed `piece_length`, `calculateLayerNumber` returns `k`
exactly when `piece_length = 16384 * 2^k` with `k` in `[0, 63]`, and returns absence for
every other input; the five table entries of the test are included. -/
theorem calculateLayerNumber_spec (piece_length : Int)
    (_hlo : -2 ^ 63 ≤ piece_length) (hhi : piece_length < 2 ^ 63) :
    (∀ k : Nat, calculateLayerNumber piece_length = some k ↔
        (k ≤ 63 ∧ piece_length = 16384 * 2 ^ k)) ∧
    (calculateLayerNumber piece_length = none ↔
        ¬ ∃ k : Nat, k ≤ 63 ∧ piece_length = 16384 * 2 ^ k) ∧
    calculateLayerNumber 16384 = some 0 ∧
    calculateLayerNumber (4 * 1024 * 1024) = some 8 ∧
    calculateLayerNumber (8 * 1024 * 1024) = some 9 ∧
    calculateLayerNumber (8 * 1024) = none ∧
    calculateLayerNumber (8 * 1024 * 1024 + 1) = none := by
  have key : ∀ k : Nat, calculateLayerNumber piece_length = some k ↔
      (k ≤ 63 ∧ piece_length = 16384 * 2 ^ k) := by
    intro k
    constructor
    · intro h
      obtain ⟨hk, hp⟩ := calculateLayerNumber_some h
      exact ⟨by omega, hp⟩
    · rintro ⟨_, hp⟩
      have hk : k ≤ 48 := by
        by_contra hcon
        have h49 : (2 : Int) ^ 49 ≤ 2 ^ k :=
          pow_le_pow_right₀ (by norm_num) (by omega)
        have : (2 : Int) ^ 63 ≤ piece_length := by
          rw [hp]
          calc (2 : Int) ^ 63 = 16384 * 2 ^ 49 := by norm_num
            _ ≤ 16384 * 2 ^ k := by linarith
        linarith
      rw [hp]
      exact calculateLayerNumber_pow k hk
  refine ⟨key, ?_, by decide, by decide, by decide, by decide, by decide⟩
  constructor
  · rintro hnone ⟨k, hk⟩
    rw [(key k).mpr hk] at hnone
    exact absurd hnone (by simp)
  · intro hno
    cases hres : calculateLayerNumber piece_length with
    | none => rfl
    | some k => exact absurd ⟨k, (key k).mp hres⟩ hno

theorem calculateLayerNumber_spec_witness :
    (∀ k : Nat, calculateLayerNumber (2 ^ 62) = some k ↔
        (k ≤ 63 ∧ (2 : Int) ^ 62 = 16384 * 2 ^ k)) ∧
    (calculateLayerNumber (2 ^ 62) = none ↔
        ¬ ∃ k : Nat, k ≤ 63 ∧ (2 : Int) ^ 62 = 16384 * 2 ^ k) ∧
    calculateLayerNumber 16384 = some 0 ∧
    calculateLayerNumber (4 * 1024 * 1024) = some 8 ∧
    calculateLayerNumber (8 * 1024 * 1024) = some 9 ∧
    calculateLayerNumber (8 * 1024) = none ∧
    calculateLayerNumber (8 * 1024 * 1024 + 1) = none :=
  calculateLayerNumber_spec (2 ^ 62) (by norm_num) (by norm_num)


/-! ## `merkle_empty_hash` -/

theorem merkle_empty_hash_hit {D : Type} (E : HashEnv D) (fuel layer : Nat) (st : MemoState D)
    (e : D) (h : st.empty_hashes[layer]? = some e) :
    merkle_empty_hash E fuel layer st = (Outcome.ret e, st) := by
  have hlt : layer < st.empty_hashes.length := by
    by_contra hcon
    rw [List.getElem?_eq_none (by omega)] at h
    exact absurd h (by simp)
  unfold merkle_empty_hash
  rw [if_neg (by omega), h]

/-- With the table given, the failure counter plays no part in the outcome. -/
theorem merkle_empty_hash_stuck {D : Type} (E : HashEnv D) (layer : Nat) (tbl : List D)
    (back : D) (hback : tbl.getLast? = some back) (hfail : E.tr_sha256 back back = none)
    (hge : layer ≥ tbl.length) :
    ∀ (fuel k : Nat), ∃ k1,
      merkle_empty_hash E fuel layer { empty_hashes := tbl, hash_failures := k } =
        (Outcome.out_of_fuel, { empty_hashes := tbl, hash_failures := k1 }) := by
  intro fuel
  induction fuel with
  | zero =>
    intro k
    refine ⟨k, ?_⟩
    unfold merkle_empty_hash
    simp [hge]
  | succ n ih =>
    intro k
    obtain ⟨k1, hk1⟩ := ih (k + 1)
    refine ⟨k1, ?_⟩
    unfold merkle_empty_hash
    simp only [hge, if_true, hback, hfail]
    exact hk1

/-- A call that returns leaves the requested entry in the table. -/
theorem merkle_empty_hash_ret {D : Type} (E : HashEnv D) (layer : Nat) :
    ∀ (fuel : Nat) (st st1 : MemoState D) (e : D),
      merkle_empty_hash E fuel layer st = (Outcome.ret e, st1) →
      st1.empty_hashes[layer]? = some e ∧ st1.hash_failures = st.hash_failures ∧
      (∃ ext, st1.empty_hashes = st.empty_hashes ++ ext) := by
  intro fuel
  induction fuel with
  | zero =>
    intro st st1 e h
    unfold merkle_empty_hash at h
    by_cases hge : layer ≥ st.empty_hashes.length
    · simp [hge] at h
    · simp only [hge, if_false] at h
      cases hget : st.empty_hashes[layer]? with
      | none => simp [hget] at h
      | some d =>
        simp only [hget, Prod.mk.injEq, Outcome.ret.injEq] at h
        obtain ⟨hd, hst⟩ := h
        subst hd; subst hst
        exact ⟨hget, rfl, [], by simp⟩
  | succ n ih =>
    intro st st1 e h
    unfold merkle_empty_hash at h
    by_cases hge : layer ≥ st.empty_hashes.length
    · simp only [hge, if_true] at h
      cases hback : st.empty_hashes.getLast? with
      | none => simp [hback] at h
      | some back =>
        simp only [hback] at h
        cases hh : E.tr_sha256 back back with
        | none =>
          obtain ⟨k1, hk1⟩ := merkle_empty_hash_stuck E layer st.empty_hashes back hback hh hge n
            (st.hash_failures + 1)
          simp only [hh] at h
          rw [hk1] at h
          simp at h
        | some hv =>
          simp only [hh] at h
          obtain ⟨h1, h2, ext, h3⟩ := ih _ _ _ h
          exact ⟨h1, h2, [hv] ++ ext, by simp [h3]⟩
    · simp only [hge, if_false] at h
      cases hget : st.empty_hashes[layer]? with
      | none => simp [hget] at h
      | some d =>
        simp only [hget, Prod.mk.injEq, Outcome.ret.injEq] at h
        obtain ⟨hd, hst⟩ := h
        subst hd; subst hst
        exact ⟨hget, rfl, [], by simp⟩

/-- When every pair hash succeeds and the table is not empty, `layer + 1` iterations
are enough for the call to return. -/
theorem merkle_empty_hash_total {D : Type} (E : HashEnv D) (layer : Nat)
    (hsucc : ∀ a b, ∃ h, E.tr_sha256 a b = some h) :
    ∀ (fuel : Nat) (st : MemoState D), st.empty_hashes ≠ [] →
      layer < st.empty_hashes.length + fuel →
      ∃ e st1, merkle_empty_hash E fuel layer st = (Outcome.ret e, st1) := by
  intro fuel
  induction fuel with
  | zero =>
    intro st _ hlt
    have hlt2 : layer < st.empty_hashes.length := by omega
    exact ⟨st.empty_hashes[layer], st,
      merkle_empty_hash_hit E 0 layer st _ (List.getElem?_eq_getElem hlt2)⟩
  | succ n ih =>
    intro st hne hlt
    by_cases hge : layer ≥ st.empty_hashes.length
    · obtain ⟨back, hback⟩ : ∃ back, st.empty_hashes.getLast? = some back := by
        cases hb : st.empty_hashes.getLast? with
        | none => exact absurd (List.getLast?_eq_none_iff.mp hb) hne
        | some b => exact ⟨b, rfl⟩
      obtain ⟨hv, hh⟩ := hsucc back back
      obtain ⟨e, st1, h1⟩ := ih { st with empty_hashes := st.empty_hashes ++ [hv] }
        (by simp) (by simp; omega)
      refine ⟨e, st1, ?_⟩
      unfold merkle_empty_hash
      simp only [hge, if_true, hback, hh]
      exact h1
    · have hlt2 : layer < st.empty_hashes.length := by omega
      exact ⟨st.empty_hashes[layer], st,
        merkle_empty_hash_hit E _ layer st _ (List.getElem?_eq_getElem hlt2)⟩

theorem pairD_eq {D : Type} (E : HashEnv D) {a b h : D} (hh : E.tr_sha256 a b = some h) :
    pairD E a b = h := by
  simp [pairD, hh]

theorem MemoInv_initial {D : Type} (E : HashEnv D) :
    MemoInv E (MemoState.initial E).empty_hashes := by
  refine ⟨by simp [MemoState.initial], ?_⟩
  intro i d h
  cases i with
  | zero =>
    simp [MemoState.initial] at h
    simp [emptyHashSpec, h]
  | succ j => simp [MemoState.initial] at h

theorem MemoInv_push {D : Type} (E : HashEnv D) (tbl : List D) (back h : D)
    (hinv : MemoInv E tbl) (hback : tbl.getLast? = some back)
    (hh : E.tr_sha256 back back = some h) : MemoInv E (tbl ++ [h]) := by
  refine ⟨by simp, ?_⟩
  intro i d hget
  by_cases hi : i < tbl.length
  · rw [List.getElem?_append_left hi] at hget
    exact hinv.2 i d hget
  · have hne := hinv.1
    have hlen : 0 < tbl.length := List.length_pos.mpr hne
    rw [List.getElem?_append_right (by omega)] at hget
    have hi0 : i - tbl.length = 0 := by
      by_contra hcon
      obtain ⟨m, hm⟩ : ∃ m, i - tbl.length = m + 1 := ⟨i - tbl.length - 1, by omega⟩
      rw [hm] at hget
      simp at hget
    rw [hi0] at hget
    simp only [List.getElem?_cons_zero, Option.some.injEq] at hget
    have hieq : i = (tbl.length - 1) + 1 := by omega
    have hb : back = emptyHashSpec E (tbl.length - 1) := by
      apply hinv.2
      rw [List.getLast?_eq_getElem?] at hback
      exact hback
    rw [hieq, emptyHashSpec, ← hb, pairD_eq E hh, hget]

/-- Every call of `merkle_empty_hash`, however it ends, keeps the table invariant. -/
theorem merkle_empty_hash_inv {D : Type} (E : HashEnv D) (layer : Nat) :
    ∀ (fuel : Nat) (st : MemoState D), MemoInv E st.empty_hashes →
      MemoInv E (merkle_empty_hash E fuel layer st).2.empty_hashes := by
  intro fuel
  induction fuel with
  | zero =>
    intro st hinv
    unfold merkle_empty_hash
    by_cases hge : layer ≥ st.empty_hashes.length
    · simpa [hge] using hinv
    · simp only [hge, if_false]
      cases st.empty_hashes[layer]? <;> exact hinv
  | succ n ih =>
    intro st hinv
    unfold merkle_empty_hash
    by_cases hge : layer ≥ st.empty_hashes.length
    · simp only [hge, if_true]
      cases hback : st.empty_hashes.getLast? with
      | none => exact hinv
      | some back =>
        cases hh : E.tr_sha256 back back with
        | none =>
          simp only [hh]
          exact ih { st with hash_failures := st.hash_failures + 1 } hinv
        | some hv =>
          simp only [hh]
          exact ih { st with empty_hashes := st.empty_hashes ++ [hv] }
            (MemoInv_push E _ back hv hinv hback hh)
    · simp only [hge, if_false]
      cases st.empty_hashes[layer]? <;> exact hinv

/-- On a table that satisfies the invariant, a call that returns gives the empty hash of
the recursive definition. -/
theorem merkle_empty_hash_value {D : Type} (E : HashEnv D) (fuel layer : Nat)
    (st st1 : MemoState D) (e : D) (hinv : MemoInv E st.empty_hashes)
    (h : merkle_empty_hash E fuel layer st = (Outcome.ret e, st1)) :
    e = emptyHashSpec E layer ∧ MemoInv E st1.empty_hashes := by
  have h1 := merkle_empty_hash_inv E layer fuel st hinv
  rw [h] at h1
  exact ⟨h1.2 layer e (merkle_empty_hash_ret E layer fuel st st1 e h).1, h1⟩

/-! ## `reduceMerkleLayer` -/

/-- Once the table has the entry of the layer, the loop leaves the state alone and
computes the reference reduction. -/
theorem reduceMerkleLayer_loop_const {D : Type} (E : HashEnv D) (fuel layer_number : Nat)
    (hsucc : ∀ a b, ∃ h, E.tr_sha256 a b = some h) (st : MemoState D) (e : D)
    (he : st.empty_hashes[layer_number]? = some e) :
    ∀ (xs out : List D),
      reduceMerkleLayer_loop E fuel layer_number xs out st =
        (Outcome.ret (out ++ reduceSpec E e xs), st)
  | [], out => by simp [reduceMerkleLayer_loop, reduceSpec]
  | [l], out => by
    obtain ⟨p, hp⟩ := hsucc l e
    simp [reduceMerkleLayer_loop, reduceSpec, merkle_empty_hash_hit E fuel layer_number st e he,
      andThen, hp, pairD_eq E hp]
  | l :: r :: rest, out => by
    obtain ⟨p, hp⟩ := hsucc l r
    have ih := reduceMerkleLayer_loop_const E fuel layer_number hsucc st e he rest (out ++ [p])
    simp [reduceMerkleLayer_loop, reduceSpec, merkle_empty_hash_hit E fuel layer_number st e he,
      andThen, hp, pairD_eq E hp, ih]

/-- The whole reduction, when every pair hash succeeds: the result is the reference
reduction with the value that `merkle_empty_hash` returns at the start, and the state is
the one after that first call (or the initial one when there is nothing to reduce). -/
theorem reduceMerkleLayer_eq {D : Type} (E : HashEnv D) (fuel layer_number : Nat)
    (hsucc : ∀ a b, ∃ h, E.tr_sha256 a b = some h) (st st1 : MemoState D) (e : D)
    (hcall : merkle_empty_hash E fuel layer_number st = (Outcome.ret e, st1)) (xs : List D) :
    reduceMerkleLayer E fuel layer_number xs st =
      (Outcome.ret (reduceSpec E e xs), if xs.length = 0 then st else st1) := by
  have he := (merkle_empty_hash_ret E layer_number fuel st st1 e hcall).1
  unfold reduceMerkleLayer
  match xs with
  | [] => simp [reduceMerkleLayer_loop, reduceSpec]
  | [l] =>
    obtain ⟨p, hp⟩ := hsucc l e
    simp [reduceMerkleLayer_loop, reduceSpec, hcall, andThen, hp, pairD_eq E hp]
  | l :: r :: rest =>
    obtain ⟨p, hp⟩ := hsucc l r
    have hrest := reduceMerkleLayer_loop_const E fuel layer_number hsucc st1 e he rest [p]
    simp [reduceMerkleLayer_loop, reduceSpec, hcall, andThen, hp, pairD_eq E hp, hrest]

theorem reduceSpec_length {D : Type} (E : HashEnv D) (e : D) :
    ∀ xs : List D, (reduceSpec E e xs).length = (xs.length + 1) / 2
  | [] => by simp [reduceSpec]
  | [l] => by simp [reduceSpec]
  | l :: r :: rest => by
    have ih := reduceSpec_length E e rest
    simp only [reduceSpec, List.length_cons, ih]
    omega

theorem reduceSpec_pair {D : Type} (E : HashEnv D) (e : D) :
    ∀ (xs : List D) (j : Nat) (h : 2 * j + 1 < xs.length),
      (reduceSpec E e xs)[j]? = some (pairD E (xs[2 * j]) (xs[2 * j + 1]))
  | [], j, h => by simp at h
  | [l], j, h => by simp at h
  | l :: r :: rest, 0, h => by simp [reduceSpec]
  | l :: r :: rest, j + 1, h => by
    have h2 : 2 * j + 1 < rest.length := by simp at h; omega
    have ih := reduceSpec_pair E e rest j h2
    simp only [reduceSpec, List.getElem?_cons_succ, ih]
    have e1 : 2 * (j + 1) = 2 * j + 1 + 1 := by ring
    have e2 : 2 * (j + 1) + 1 = 2 * j + 1 + 1 + 1 := by ring
    simp [e1, e2]

theorem reduceSpec_last {D : Type} (E : HashEnv D) (e : D) :
    ∀ (xs : List D) (_h : xs.length % 2 = 1),
      (reduceSpec E e xs)[(xs.length - 1) / 2]? =
        (xs[xs.length - 1]?).map fun x => pairD E x e
  | [], h => by simp at h
  | [l], _ => by simp [reduceSpec]
  | l :: r :: rest, h => by
    have h2 : rest.length % 2 = 1 := by simp at h; omega
    have ih := reduceSpec_last E e rest h2
    have hpos : 0 < rest.length := by omega
    have e1 : ((l :: r :: rest).length - 1) / 2 = (rest.length - 1) / 2 + 1 := by
      simp only [List.length_cons]; omega
    have e2 : (l :: r :: rest).length - 1 = (rest.length - 1) + 1 + 1 := by
      simp only [List.length_cons]; omega
    rw [e1, e2]
    simp only [reduceSpec, List.getElem?_cons_succ, ih]

/-! ## `validatePieceLayers` against the root found by reduction -/

/-- C2: on a layer for which `reduceMerkleLayerToRoot` yields a digest `d`,
`validatePieceLayers` is true for the root `d` and false for every other root. -/
theorem validatePieceLayers_accepts_exactly_found_root {D : Type} [DecidableEq D]
    (E : HashEnv D) (fuel : Nat) (layer : merkle_layer D) (st st1 : MemoState D) (d : D)
    (h : reduceMerkleLayerToRoot E fuel layer st = (Outcome.ret d, st1)) :
    validatePieceLayers E fuel d layer st = (Outcome.ret true, st1) ∧
    ∀ root : D, root ≠ d →
      validatePieceLayers E fuel root layer st = (Outcome.ret false, st1) := by
  constructor
  · simp [validatePieceLayers, h, andThen]
  · intro root hne
    simp [validatePieceLayers, h, andThen, hne]

theorem validatePieceLayers_accepts_exactly_found_root_witness :
    reduceMerkleLayerToRoot toyEnv 10 (0, [1, 2, 3]) (MemoState.initial toyEnv) =
        (Outcome.ret 176, { empty_hashes := [0, 1], hash_failures := 0 }) ∧
      validatePieceLayers toyEnv 10 176 (0, [1, 2, 3]) (MemoState.initial toyEnv) =
        (Outcome.ret true, { empty_hashes := [0, 1], hash_failures := 0 }) ∧
      ∀ root : Nat, root ≠ 176 →
        validatePieceLayers toyEnv 10 root (0, [1, 2, 3]) (MemoState.initial toyEnv) =
          (Outcome.ret false, { empty_hashes := [0, 1], hash_failures := 0 }) :=
  ⟨by decide, validatePieceLayers_accepts_exactly_found_root toyEnv 10 (0, [1, 2, 3])
    (MemoState.initial toyEnv) { empty_hashes := [0, 1], hash_failures := 0 } 176 (by decide)⟩

/-- C4: at the failing input, a layer with number 100 and two hashes, the reduction loop
does not run, `reduceMerkleLayerToRoot` returns the first of the two remaining digests,
and `validatePieceLayers` accepts that digest as the root, whatever the hash primitive. -/
theorem validatePieceLayers_at_max_layer_accepts_first (E : HashEnv tr_sha256_digest_t)
    (fuel : Nat) (st : MemoState tr_sha256_digest_t) :
    reduceMerkleLayerToRoot E fuel (100, [const_digest 1, const_digest 2]) st =
        (Outcome.ret (const_digest 1), st) ∧
      validatePieceLayers E fuel (const_digest 1) (100, [const_digest 1, const_digest 2]) st =
        (Outcome.ret true, st) := by
  constructor <;>
    simp [validatePieceLayers, reduceMerkleLayerToRoot, reduceMerkleLayerToRoot_loop, MAX_LAYER,
      andThen]

/-- C5: at the failing input, the entry parsed from a 32-byte key and an empty value, the
hash list is empty and `validatePieceLayers` reads `out[0]` of an empty vector: the call
ends in an out-of-range access, not in a boolean. -/
theorem validatePieceLayers_empty_layer_out_of_range (E : HashEnv tr_sha256_digest_t)
    (fuel layer_number : Nat) (st : MemoState tr_sha256_digest_t) :
    parsePieceLayersEntry (List.replicate 32 7) [] = some (const_digest 7, []) ∧
      validatePieceLayers E fuel (const_digest 7) (layer_number, []) st =
        (Outcome.out_of_range, st) := by
  constructor
  · decide
  · cases hn : MAX_LAYER - layer_number <;>
      simp [validatePieceLayers, reduceMerkleLayerToRoot, reduceMerkleLayerToRoot_loop, hn,
        andThen]

/-! ## `parsePieceLayersEntry` -/

/-- C7: `parsePieceLayersEntry` returns an entry exactly when the key has 32 bytes and the
length of the value is a multiple of 32; otherwise it returns absence. -/
theorem parsePieceLayersEntry_isSome_iff (k vs : List Byte) :
    ((parsePieceLayersEntry k vs).isSome ↔ (k.length = 32 ∧ vs.length % 32 = 0)) ∧
    (parsePieceLayersEntry k vs = none ↔ (k.length ≠ 32 ∨ vs.length % 32 ≠ 0)) := by
  unfold parsePieceLayersEntry tr_sha256_from_raw TR_SHA256_DIGEST_LEN
  by_cases hk : k.length = 32 <;> by_cases hv : vs.length % 32 = 0 <;> simp [hk, hv]

theorem copy_n_resized (vs : List Byte) (hv : vs.length % 32 = 0) :
    copy_n vs vs.length (resized_storage (vs.length / sizeof_digest)) = vs := by
  unfold copy_n resized_storage sizeof_digest TR_SHA256_DIGEST_LEN
  have hlen : vs.length / 32 * 32 = vs.length := by omega
  rw [hlen, List.take_length]
  simp

theorem ofFn_getD_eq_slice (l : List Byte) (a m : Nat) (h : a + m ≤ l.length) :
    (List.ofFn fun j : Fin m => l.getD (a + j.val) 0) = (l.drop a).take m := by
  apply List.ext_getElem
  · simp; omega
  · intro j h1 h2
    simp only [List.length_ofFn] at h1
    have hj : a + j < l.length := by omega
    simp [List.getD_eq_getElem?_getD, List.getElem?_eq_getElem hj]

theorem digest_at_bytes (vs : List Byte) (i : Nat) (h : 32 * i + 32 ≤ vs.length) :
    (digest_at vs i).bytes = (vs.drop (32 * i)).take 32 :=
  ofFn_getD_eq_slice vs (32 * i) 32 h

theorem chunks_flatten : ∀ (n : Nat) (vs : List Byte), vs.length = 32 * n →
    ((List.range n).map fun i => (vs.drop (32 * i)).take 32).flatten = vs := by
  intro n
  induction n with
  | zero =>
    intro vs h
    have : vs = [] := List.length_eq_zero.mp (by omega)
    simp [this]
  | succ m ih =>
    intro vs h
    have ih1 := ih (vs.drop 32) (by simp; omega)
    rw [List.range_succ_eq_map, List.map_cons, List.flatten_cons, List.map_map]
    have hfun : ((fun i => List.take 32 (List.drop (32 * i) vs)) ∘ Nat.succ) =
        fun i => List.take 32 (List.drop (32 * i) (List.drop 32 vs)) := by
      funext i
      simp only [Function.comp, List.drop_drop]
      congr 2
      omega
    rw [hfun, ih1]
    simp

/-- C8: when `parsePieceLayersEntry` succeeds, the root is the key, there are
`len(value)/32` hashes, the `i`-th hash is the bytes `value[32*i .. 32*i+32)`, and the
hashes concatenated in order give back the value. -/
theorem parsePieceLayersEntry_splits_value (k vs : List Byte) (root : tr_sha256_digest_t)
    (hashes : List tr_sha256_digest_t)
    (h : parsePieceLayersEntry k vs = some (root, hashes)) :
    root.bytes = k ∧ hashes.length = vs.length / 32 ∧
    (∀ i : Nat, i < hashes.length →
      (hashes[i]?).map tr_sha256_digest_t.bytes = some ((vs.drop (32 * i)).take 32)) ∧
    (hashes.map tr_sha256_digest_t.bytes).flatten = vs := by
  unfold parsePieceLayersEntry tr_sha256_from_raw at h
  by_cases hk : k.length = TR_SHA256_DIGEST_LEN
  · by_cases hv : vs.length % 32 = 0
    · simp only [hk, dite_true, TR_SHA256_DIGEST_LEN, hv, ne_eq, not_true_eq_false, if_false,
        Option.some.injEq, Prod.mk.injEq] at h
      obtain ⟨hroot, hhashes⟩ := h
      rw [copy_n_resized vs hv] at hhashes
      have hn : sizeof_digest = 32 := rfl
      rw [hn] at hhashes
      have hchunk : ∀ i, i < vs.length / 32 →
          (digest_at vs i).bytes = (vs.drop (32 * i)).take 32 := by
        intro i hi
        exact digest_at_bytes vs i (by omega)
      subst hroot
      subst hhashes
      refine ⟨rfl, by simp, ?_, ?_⟩
      · intro i hi
        simp only [List.length_map, List.length_range] at hi
        simp [List.getElem?_map, List.getElem?_range hi, hchunk i hi]
      · rw [List.map_map]
        have hcongr : (List.range (vs.length / 32)).map
              (tr_sha256_digest_t.bytes ∘ digest_at vs) =
            (List.range (vs.length / 32)).map fun i => (vs.drop (32 * i)).take 32 := by
          apply List.map_congr_left
          intro i hi
          exact hchunk i (List.mem_range.mp hi)
        rw [hcongr]
        exact chunks_flatten (vs.length / 32) vs (by omega)
    · simp [hk, TR_SHA256_DIGEST_LEN, hv] at h
  · simp [hk] at h

theorem parsePieceLayersEntry_splits_value_witness :
    parsePieceLayersEntry (List.replicate 32 7) (List.replicate 32 1 ++ List.replicate 32 2) =
        some (const_digest 7, [const_digest 1, const_digest 2]) ∧
      ((const_digest 7).bytes = List.replicate 32 7 ∧
        [const_digest 1, const_digest 2].length =
          (List.replicate 32 (1 : Byte) ++ List.replicate 32 2).length / 32 ∧
        (∀ i : Nat, i < [const_digest 1, const_digest 2].length →
          ([const_digest 1, const_digest 2][i]?).map tr_sha256_digest_t.bytes =
            some (((List.replicate 32 (1 : Byte) ++ List.replicate 32 2).drop (32 * i)).take 32)) ∧
        ([const_digest 1, const_digest 2].map tr_sha256_digest_t.bytes).flatten =
          List.replicate 32 (1 : Byte) ++ List.replicate 32 2) :=
  ⟨by decide, parsePieceLayersEntry_splits_value (List.replicate 32 7)
    (List.replicate 32 1 ++ List.replicate 32 2) (const_digest 7)
    [const_digest 1, const_digest 2] (by decide)⟩

/-! ## Shape of one reduction -/

theorem pairD_eq_tr_sha256 {D : Type} (E : HashEnv D)
    (hsucc : ∀ a b, ∃ h, E.tr_sha256 a b = some h) (a b : D) :
    E.tr_sha256 a b = some (pairD E a b) := by
  obtain ⟨h, hh⟩ := hsucc a b
  rw [hh, pairD_eq E hh]

/-- C9: when every pair hash succeeds, `reduceMerkleLayer` returns (given `L + 1` loop
iterations for the memo table) and its result has length `ceil(n/2)`. -/
theorem reduceMerkleLayer_length {D : Type} (E : HashEnv D) (fuel L : Nat) (hashes : List D)
    (st : MemoState D) (hsucc : ∀ a b, ∃ h, E.tr_sha256 a b = some h)
    (hne : st.empty_hashes ≠ []) (hfuel : L < fuel) :
    ∃ out st1, reduceMerkleLayer E fuel L hashes st = (Outcome.ret out, st1) ∧
      out.length = (hashes.length + 1) / 2 := by
  obtain ⟨e, st0, hcall⟩ := merkle_empty_hash_total E L hsucc fuel st hne (by omega)
  exact ⟨_, _, reduceMerkleLayer_eq E fuel L hsucc st st0 e hcall hashes,
    reduceSpec_length E e hashes⟩

theorem reduceMerkleLayer_length_witness :
    (∀ a b, ∃ h, toyEnv.tr_sha256 a b = some h) ∧
      (MemoState.initial toyEnv).empty_hashes ≠ [] ∧ 0 < 10 ∧
      ∃ out st1, reduceMerkleLayer toyEnv 10 0 [1, 2, 3] (MemoState.initial toyEnv) =
          (Outcome.ret out, st1) ∧
        out.length = ([1, 2, 3].length + 1) / 2 :=
  ⟨fun a b => ⟨Nat.pair a b + 1, rfl⟩, by decide, by decide,
    reduceMerkleLayer_length toyEnv 10 0 [1, 2, 3] (MemoState.initial toyEnv)
      (fun a b => ⟨Nat.pair a b + 1, rfl⟩) (by decide) (by decide)⟩

/-- C10: when every pair hash succeeds, output `j` of `reduceMerkleLayer` is the hash of
`hashes[2j]` (left) and `hashes[2j+1]` (right) whenever `2j+1 < n`, and for odd `n` the
last output is the hash of `hashes[n-1]` and the value of `merkle_empty_hash(L)`. -/
theorem reduceMerkleLayer_elements {D : Type} (E : HashEnv D) (fuel L : Nat)
    (hashes : List D) (st : MemoState D) (hsucc : ∀ a b, ∃ h, E.tr_sha256 a b = some h)
    (hne : st.empty_hashes ≠ []) (hfuel : L < fuel) :
    ∃ e st0 out st1, merkle_empty_hash E fuel L st = (Outcome.ret e, st0) ∧
      reduceMerkleLayer E fuel L hashes st = (Outcome.ret out, st1) ∧
      (∀ (j : Nat) (_h : 2 * j + 1 < hashes.length),
        out[j]? = E.tr_sha256 (hashes[2 * j]) (hashes[2 * j + 1])) ∧
      (hashes.length % 2 = 1 →
        out.getLast? = (hashes[hashes.length - 1]?).bind fun x => E.tr_sha256 x e) := by
  obtain ⟨e, st0, hcall⟩ := merkle_empty_hash_total E L hsucc fuel st hne (by omega)
  refine ⟨e, st0, _, _, hcall, reduceMerkleLayer_eq E fuel L hsucc st st0 e hcall hashes, ?_, ?_⟩
  · intro j h
    rw [reduceSpec_pair E e hashes j h, pairD_eq_tr_sha256 E hsucc]
  · intro hodd
    have hlen := reduceSpec_length E e hashes
    have hidx : (reduceSpec E e hashes).length - 1 = (hashes.length - 1) / 2 := by
      rw [hlen]; omega
    rw [List.getLast?_eq_getElem?, hidx, reduceSpec_last E e hashes hodd]
    have hlt : hashes.length - 1 < hashes.length := by omega
    simp [List.getElem?_eq_getElem hlt, pairD_eq_tr_sha256 E hsucc]

theorem reduceMerkleLayer_elements_witness :
    (∀ a b, ∃ h, toyEnv.tr_sha256 a b = some h) ∧
      (MemoState.initial toyEnv).empty_hashes ≠ [] ∧ 1 < 10 ∧
      ∃ e st0 out st1,
        merkle_empty_hash toyEnv 10 1 (MemoState.initial toyEnv) = (Outcome.ret e, st0) ∧
        reduceMerkleLayer toyEnv 10 1 [1, 2, 3] (MemoState.initial toyEnv) =
          (Outcome.ret out, st1) ∧
        (∀ (j : Nat) (_h : 2 * j + 1 < [1, 2, 3].length),
          out[j]? = toyEnv.tr_sha256 ([1, 2, 3][2 * j]) ([1, 2, 3][2 * j + 1])) ∧
        ([1, 2, 3].length % 2 = 1 →
          out.getLast? = ([1, 2, 3][[1, 2, 3].length - 1]?).bind fun x => toyEnv.tr_sha256 x e) :=
  ⟨fun a b => ⟨Nat.pair a b + 1, rfl⟩, by decide, by decide,
    reduceMerkleLayer_elements toyEnv 10 1 [1, 2, 3] (MemoState.initial toyEnv)
      (fun a b => ⟨Nat.pair a b + 1, rfl⟩) (by decide) (by decide)⟩

/-! ## Hash failures during validation -/

theorem andThen_ret {α β S : Type} (x : Outcome α × S) (f : α → S → Outcome β × S) (b : β)
    (s : S) (h : andThen x f = (Outcome.ret b, s)) :
    ∃ a s0, x = (Outcome.ret a, s0) ∧ f a s0 = (Outcome.ret b, s) := by
  obtain ⟨o, s0⟩ := x
  cases o with
  | ret a => exact ⟨a, s0, rfl, h⟩
  | out_of_range => simp [andThen] at h
  | out_of_fuel => simp [andThen] at h

/-- A run of the reduction loop that returns has either seen no failed hash or returns
the empty vector. -/
theorem reduceMerkleLayer_loop_failures {D : Type} (E : HashEnv D) (fuel layer_number : Nat) :
    ∀ (xs out : List D) (st st1 : MemoState D) (o1 : List D),
      reduceMerkleLayer_loop E fuel layer_number xs out st = (Outcome.ret o1, st1) →
      st1.hash_failures = st.hash_failures ∨ o1 = []
  | [], out, st, st1, o1, h => by
    simp only [reduceMerkleLayer_loop, Prod.mk.injEq, Outcome.ret.injEq] at h
    exact Or.inl (by rw [h.2])
  | [l], out, st, st1, o1, h => by
    simp only [reduceMerkleLayer_loop] at h
    obtain ⟨r, s0, hcall, hrest⟩ := andThen_ret _ _ _ _ h
    have hf := (merkle_empty_hash_ret E layer_number fuel st s0 r hcall).2.1
    cases hp : E.tr_sha256 l r with
    | none =>
      simp only [hp, Prod.mk.injEq, Outcome.ret.injEq] at hrest
      exact Or.inr hrest.1.symm
    | some p =>
      simp only [hp, Prod.mk.injEq, Outcome.ret.injEq] at hrest
      exact Or.inl (by rw [← hrest.2, hf])
  | l :: r :: rest, out, st, st1, o1, h => by
    simp only [reduceMerkleLayer_loop] at h
    obtain ⟨e, s0, hcall, hrest⟩ := andThen_ret _ _ _ _ h
    have hf := (merkle_empty_hash_ret E layer_number fuel st s0 e hcall).2.1
    cases hp : E.tr_sha256 l r with
    | none =>
      simp only [hp, Prod.mk.injEq, Outcome.ret.injEq] at hrest
      exact Or.inr hrest.1.symm
    | some p =>
      simp only [hp] at hrest
      rcases reduceMerkleLayer_loop_failures E fuel layer_number rest _ s0 st1 o1 hrest with h1 | h1
      · exact Or.inl (by rw [h1, hf])
      · exact Or.inr h1

theorem reduceMerkleLayerToRoot_loop_nil {D : Type} (E : HashEnv D) (fuel n cur_layer : Nat)
    (st : MemoState D) :
    reduceMerkleLayerToRoot_loop E fuel n cur_layer [] st = (Outcome.ret [], st) := by
  cases n <;> simp [reduceMerkleLayerToRoot_loop]

theorem reduceMerkleLayerToRoot_loop_failures {D : Type} (E : HashEnv D) (fuel : Nat) :
    ∀ (n cur_layer : Nat) (out : List D) (st st1 : MemoState D) (o1 : List D),
      reduceMerkleLayerToRoot_loop E fuel n cur_layer out st = (Outcome.ret o1, st1) →
      st1.hash_failures = st.hash_failures ∨ o1 = [] := by
  intro n
  induction n with
  | zero =>
    intro cur_layer out st st1 o1 h
    simp only [reduceMerkleLayerToRoot_loop, Prod.mk.injEq, Outcome.ret.injEq] at h
    exact Or.inl (by rw [h.2])
  | succ m ih =>
    intro cur_layer out st st1 o1 h
    simp only [reduceMerkleLayerToRoot_loop] at h
    by_cases hc : cur_layer < MAX_LAYER ∧ out.length > 1
    · rw [if_pos hc] at h
      obtain ⟨o0, s0, hred, hrest⟩ := andThen_ret _ _ _ _ h
      rcases reduceMerkleLayer_loop_failures E fuel cur_layer out [] st s0 o0 hred with h1 | h1
      · rcases ih _ _ _ _ _ hrest with h2 | h2
        · exact Or.inl (by rw [h2, h1])
        · exact Or.inr h2
      · subst h1
        rw [reduceMerkleLayerToRoot_loop_nil] at hrest
        simp only [Prod.mk.injEq, Outcome.ret.injEq] at hrest
        exact Or.inr hrest.1.symm
    · rw [if_neg hc] at h
      simp only [Prod.mk.injEq, Outcome.ret.injEq] at h
      exact Or.inl (by rw [h.2])

/-- A call of `validatePieceLayers` that returns a boolean has seen no failed hash. -/
theorem validatePieceLayers_ret_failures {D : Type} [DecidableEq D] (E : HashEnv D)
    (fuel : Nat) (root : D) (layer : merkle_layer D) (st st1 : MemoState D) (b : Bool)
    (h : validatePieceLayers E fuel root layer st = (Outcome.ret b, st1)) :
    st1.hash_failures = st.hash_failures := by
  unfold validatePieceLayers at h
  obtain ⟨d, s0, hroot, hrest⟩ := andThen_ret _ _ _ _ h
  simp only [Prod.mk.injEq, Outcome.ret.injEq] at hrest
  unfold reduceMerkleLayerToRoot at hroot
  obtain ⟨o1, s1, hloop, hidx⟩ := andThen_ret _ _ _ _ hroot
  rcases reduceMerkleLayerToRoot_loop_failures E fuel _ _ _ _ _ _ hloop with h1 | h1
  · cases hget : o1[0]? with
    | none => simp [hget] at hidx
    | some x =>
      simp only [hget, Prod.mk.injEq, Outcome.ret.injEq] at hidx
      rw [← hrest.2, ← hidx.2, h1]
  · subst h1
    simp at hidx

/-- For a pair hash whose result depends on its arguments only, so that a failed hash
fails again on every retry: if a pair hash fails during the reduction done by
`validatePieceLayers` (the failure counter of the final state differs from the initial
one), the call does not return true; it ends in the out-of-range read of `out[0]` or is
still looping. For failures that do not repeat see `Transient.validatePieceLayers`. -/
theorem validatePieceLayers_hash_failure_not_true {D : Type} [DecidableEq D] (E : HashEnv D)
    (fuel : Nat) (root : D) (layer : merkle_layer D) (st : MemoState D)
    (hfail : (validatePieceLayers E fuel root layer st).2.hash_failures ≠ st.hash_failures) :
    (validatePieceLayers E fuel root layer st).1 ≠ Outcome.ret true := by
  intro htrue
  apply hfail
  exact validatePieceLayers_ret_failures E fuel root layer st _ true
    (Prod.ext htrue rfl)

theorem validatePieceLayers_hash_failure_not_true_witness :
    (validatePieceLayers failEnv 10 1 (0, [1, 2]) (MemoState.initial failEnv)).2.hash_failures ≠
        (MemoState.initial failEnv).hash_failures ∧
      (validatePieceLayers failEnv 10 1 (0, [1, 2]) (MemoState.initial failEnv)).1 ≠
        Outcome.ret true :=
  ⟨by decide, validatePieceLayers_hash_failure_not_true failEnv 10 1 (0, [1, 2])
    (MemoState.initial failEnv) (by decide)⟩

/-! ## Reduction to the root when every hash succeeds -/

/-- One reduction on a table that satisfies the invariant. -/
theorem reduceMerkleLayer_spec {D : Type} (E : HashEnv D) (fuel L : Nat) (xs : List D)
    (st : MemoState D) (hsucc : ∀ a b, ∃ h, E.tr_sha256 a b = some h)
    (hinv : MemoInv E st.empty_hashes) (hfuel : L < fuel) :
    ∃ st1, reduceMerkleLayer E fuel L xs st =
        (Outcome.ret (reduceSpec E (emptyHashSpec E L) xs), st1) ∧
      MemoInv E st1.empty_hashes := by
  obtain ⟨e, st0, hcall⟩ := merkle_empty_hash_total E L hsucc fuel st hinv.1 (by omega)
  obtain ⟨he, hinv0⟩ := merkle_empty_hash_value E fuel L st st0 e hinv hcall
  refine ⟨if xs.length = 0 then st else st0, ?_, ?_⟩
  · rw [reduceMerkleLayer_eq E fuel L hsucc st st0 e hcall xs, he]
  · split
    · exact hinv
    · exact hinv0

theorem uint_add_small (a : Nat) (h : a < MAX_LAYER) : uint_add a 1 = a + 1 := by
  unfold uint_add
  unfold MAX_LAYER at h
  omega

theorem reduceMerkleLayerToRoot_loop_spec {D : Type} (E : HashEnv D) (fuel : Nat)
    (hsucc : ∀ a b, ∃ h, E.tr_sha256 a b = some h) (hfuel : MAX_LAYER ≤ fuel) :
    ∀ (n cur_layer : Nat) (out : List D) (st : MemoState D), MemoInv E st.empty_hashes →
      ∃ st1, reduceMerkleLayerToRoot_loop E fuel n cur_layer out st =
          (Outcome.ret (rootLoopSpec E n cur_layer out), st1) ∧
        MemoInv E st1.empty_hashes := by
  intro n
  induction n with
  | zero =>
    intro cur_layer out st hinv
    exact ⟨st, by simp [reduceMerkleLayerToRoot_loop, rootLoopSpec], hinv⟩
  | succ m ih =>
    intro cur_layer out st hinv
    by_cases hc : cur_layer < MAX_LAYER ∧ out.length > 1
    · obtain ⟨st0, hred, hinv0⟩ :=
        reduceMerkleLayer_spec E fuel cur_layer out st hsucc hinv (by omega)
      obtain ⟨st1, hloop, hinv1⟩ :=
        ih (cur_layer + 1) (reduceSpec E (emptyHashSpec E cur_layer) out) st0 hinv0
      refine ⟨st1, ?_, hinv1⟩
      simp only [reduceMerkleLayerToRoot_loop, rootLoopSpec, if_pos hc, hred, andThen,
        uint_add_small cur_layer hc.1, hloop]
    · exact ⟨st, by simp only [reduceMerkleLayerToRoot_loop, rootLoopSpec, if_neg hc], hinv⟩

theorem rootLoopSpec_length_one {D : Type} (E : HashEnv D) :
    ∀ (n cur_layer : Nat) (out : List D), cur_layer + n ≤ MAX_LAYER → 1 ≤ out.length →
      out.length ≤ 2 ^ n → (rootLoopSpec E n cur_layer out).length = 1 := by
  intro n
  induction n with
  | zero =>
    intro cur_layer out _ h1 h2
    simp only [rootLoopSpec]
    simp at h2
    omega
  | succ m ih =>
    intro cur_layer out hcur h1 h2
    simp only [rootLoopSpec]
    by_cases hc : cur_layer < MAX_LAYER ∧ out.length > 1
    · rw [if_pos hc]
      have hlen := reduceSpec_length E (emptyHashSpec E cur_layer) out
      have hpow : 2 ^ (m + 1) = 2 * 2 ^ m := by ring
      apply ih
      · omega
      · omega
      · omega
    · rw [if_neg hc]
      have : cur_layer < MAX_LAYER := by omega
      have : ¬ out.length > 1 := fun h => hc ⟨this, h⟩
      omega

theorem reduceSpec_injective {D : Type} (E : HashEnv D) (e : D)
    (hinjD : ∀ a b c d, pairD E a b = pairD E c d → a = c ∧ b = d) :
    ∀ (xs ys : List D), xs.length = ys.length →
      reduceSpec E e xs = reduceSpec E e ys → xs = ys
  | [], [], _, _ => rfl
  | [], _ :: _, hl, _ => by simp at hl
  | _ :: _, [], hl, _ => by simp at hl
  | [a], [b], _, h => by
    simp only [reduceSpec, List.cons.injEq, and_true] at h
    rw [(hinjD _ _ _ _ h).1]
  | [a], _ :: _ :: _, hl, _ => by simp at hl
  | _ :: _ :: _, [b], hl, _ => by simp at hl
  | a :: b :: xs, c :: d :: ys, hl, h => by
    simp only [reduceSpec, List.cons.injEq] at h
    have hl2 : xs.length = ys.length := by simpa using hl
    obtain ⟨hac, hbd⟩ := hinjD _ _ _ _ h.1
    rw [hac, hbd, reduceSpec_injective E e hinjD xs ys hl2 h.2]

theorem rootLoopSpec_injective {D : Type} (E : HashEnv D)
    (hinjD : ∀ a b c d, pairD E a b = pairD E c d → a = c ∧ b = d) :
    ∀ (n cur_layer : Nat) (xs ys : List D), xs.length = ys.length →
      rootLoopSpec E n cur_layer xs = rootLoopSpec E n cur_layer ys → xs = ys := by
  intro n
  induction n with
  | zero =>
    intro cur_layer xs ys _ h
    simpa [rootLoopSpec] using h
  | succ m ih =>
    intro cur_layer xs ys hl h
    simp only [rootLoopSpec, ← hl] at h
    by_cases hc : cur_layer < MAX_LAYER ∧ xs.length > 1
    · rw [if_pos hc, if_pos hc] at h
      have hl2 : (reduceSpec E (emptyHashSpec E cur_layer) xs).length =
          (reduceSpec E (emptyHashSpec E cur_layer) ys).length := by
        rw [reduceSpec_length, reduceSpec_length, hl]
      exact reduceSpec_injective E _ hinjD xs ys hl (ih _ _ _ hl2 h)
    · rw [if_neg hc, if_neg hc] at h
      exact h

/-- With every hash succeeding, a layer below the bound with between `1` and
`2^(100-L)` hashes is reduced to the single digest of the reference loop. -/
theorem reduceMerkleLayerToRoot_spec {D : Type} (E : HashEnv D) (fuel L : Nat)
    (hashes : List D) (st : MemoState D) (hsucc : ∀ a b, ∃ h, E.tr_sha256 a b = some h)
    (hfuel : MAX_LAYER ≤ fuel) (hinv : MemoInv E st.empty_hashes) (hL : L < MAX_LAYER)
    (h1 : 1 ≤ hashes.length) (h2 : hashes.length ≤ 2 ^ (MAX_LAYER - L)) :
    ∃ d st1, rootLoopSpec E (MAX_LAYER - L) L hashes = [d] ∧
      reduceMerkleLayerToRoot E fuel (L, hashes) st = (Outcome.ret d, st1) ∧
      MemoInv E st1.empty_hashes := by
  obtain ⟨st1, hloop, hinv1⟩ :=
    reduceMerkleLayerToRoot_loop_spec E fuel hsucc hfuel (MAX_LAYER - L) L hashes st hinv
  have hlen := rootLoopSpec_length_one E (MAX_LAYER - L) L hashes (by omega) h1 h2
  obtain ⟨d, hd⟩ := List.length_eq_one.mp hlen
  refine ⟨d, st1, hd, ?_, hinv1⟩
  simp only [reduceMerkleLayerToRoot, hloop, andThen, hd]
  rfl

/-- C3: with a pair hash that always succeeds and has no collisions, for a layer number
`L < 100` and a non-empty hash list of length at most `2^(100-L)`: if the layer validates
against `root`, the layer with one hash replaced by a different digest does not. -/
theorem validatePieceLayers_rejects_replaced_hash {D : Type} [DecidableEq D] (E : HashEnv D)
    (fuel L : Nat) (root : D) (hashes : List D) (i : Nat) (x : D) (st st2 : MemoState D)
    (hsucc : ∀ a b, ∃ h, E.tr_sha256 a b = some h)
    (hinj : ∀ a b c d, E.tr_sha256 a b = E.tr_sha256 c d → a = c ∧ b = d)
    (hL : L < 100) (hne : hashes ≠ []) (hlen : hashes.length ≤ 2 ^ (100 - L))
    (hi : i < hashes.length) (hx : x ≠ hashes[i])
    (hinv : MemoInv E st.empty_hashes) (hinv2 : MemoInv E st2.empty_hashes)
    (hfuel : 100 ≤ fuel)
    (hvalid : (validatePieceLayers E fuel root (L, hashes) st).1 = Outcome.ret true) :
    (validatePieceLayers E fuel root (L, hashes.set i x) st2).1 = Outcome.ret false := by
  have hinjD : ∀ a b c d, pairD E a b = pairD E c d → a = c ∧ b = d := by
    intro a b c d h
    apply hinj
    rw [pairD_eq_tr_sha256 E hsucc a b, pairD_eq_tr_sha256 E hsucc c d, h]
  have hpos : 1 ≤ hashes.length := List.length_pos.mpr hne
  obtain ⟨d, st1, hd, hroot, _⟩ :=
    reduceMerkleLayerToRoot_spec E fuel L hashes st hsucc hfuel hinv hL hpos hlen
  obtain ⟨d2, st3, hd2, hroot2, _⟩ :=
    reduceMerkleLayerToRoot_spec E fuel L (hashes.set i x) st2 hsucc hfuel hinv2 hL
      (by simpa using hpos) (by simpa using hlen)
  have hdiff : hashes.set i x ≠ hashes := by
    intro heq
    have h3 : (hashes.set i x)[i]? = hashes[i]? := by rw [heq]
    rw [List.getElem?_set_self hi, List.getElem?_eq_getElem hi] at h3
    exact hx (Option.some.inj h3)
  have hd_ne : d2 ≠ d := by
    intro heq
    apply hdiff
    apply rootLoopSpec_injective E hinjD (MAX_LAYER - L) L _ _ (by simp)
    rw [hd, hd2, heq]
  simp only [validatePieceLayers, hroot, andThen, Outcome.ret.injEq, decide_eq_true_eq] at hvalid
  simp only [validatePieceLayers, hroot2, andThen, Outcome.ret.injEq, decide_eq_false_iff_not]
  rw [hvalid]
  exact fun h => hd_ne h.symm

theorem toyEnv_succeeds : ∀ a b, ∃ h, toyEnv.tr_sha256 a b = some h :=
  fun a b => ⟨Nat.pair a b + 1, rfl⟩

theorem toyEnv_collision_free :
    ∀ a b c d, toyEnv.tr_sha256 a b = toyEnv.tr_sha256 c d → a = c ∧ b = d := by
  intro a b c d h
  simp only [toyEnv, Option.some.injEq, add_left_inj] at h
  exact Nat.pair_eq_pair.mp h

theorem validatePieceLayers_rejects_replaced_hash_witness :
    (validatePieceLayers toyEnv 100 176 (0, [1, 2, 3]) (MemoState.initial toyEnv)).1 =
        Outcome.ret true ∧
      (validatePieceLayers toyEnv 100 176 (0, [1, 2, 3].set 1 5) (MemoState.initial toyEnv)).1 =
        Outcome.ret false :=
  ⟨by decide, validatePieceLayers_rejects_replaced_hash toyEnv 100 0 176 [1, 2, 3] 1 5
    (MemoState.initial toyEnv) (MemoState.initial toyEnv) toyEnv_succeeds toyEnv_collision_free
    (by decide) (by decide) (by decide) (by decide) (by decide)
    (MemoInv_initial toyEnv) (MemoInv_initial toyEnv) (by decide) (by decide)⟩

/-! ## The memo table of `merkle_empty_hash` -/

/-- Whatever the outcome, a call only appends to the table. -/
theorem merkle_empty_hash_append {D : Type} (E : HashEnv D) (layer : Nat) :
    ∀ (fuel : Nat) (st : MemoState D),
      ∃ ext, (merkle_empty_hash E fuel layer st).2.empty_hashes = st.empty_hashes ++ ext := by
  intro fuel
  induction fuel with
  | zero =>
    intro st
    refine ⟨[], ?_⟩
    unfold merkle_empty_hash
    by_cases hge : layer ≥ st.empty_hashes.length
    · simp [hge]
    · simp only [hge, if_false]
      cases st.empty_hashes[layer]? <;> simp
  | succ m ih =>
    intro st
    unfold merkle_empty_hash
    by_cases hge : layer ≥ st.empty_hashes.length
    · simp only [hge, if_true]
      cases hback : st.empty_hashes.getLast? with
      | none => exact ⟨[], by simp⟩
      | some back =>
        cases hh : E.tr_sha256 back back with
        | none =>
          simp only [hh]
          exact ih { st with hash_failures := st.hash_failures + 1 }
        | some hv =>
          simp only [hh]
          obtain ⟨ext, hext⟩ := ih { st with empty_hashes := st.empty_hashes ++ [hv] }
          exact ⟨[hv] ++ ext, by rw [hext]; simp⟩
    · refine ⟨[], ?_⟩
      simp only [hge, if_false]
      cases st.empty_hashes[layer]? <;> simp

/-- A call that returns leaves a table of length `max(old length, layer + 1)`. -/
theorem merkle_empty_hash_ret_length {D : Type} (E : HashEnv D) (layer : Nat) :
    ∀ (fuel : Nat) (st st1 : MemoState D) (e : D),
      merkle_empty_hash E fuel layer st = (Outcome.ret e, st1) →
      st1.empty_hashes.length = max st.empty_hashes.length (layer + 1) := by
  intro fuel
  induction fuel with
  | zero =>
    intro st st1 e h
    by_cases hge : layer ≥ st.empty_hashes.length
    · unfold merkle_empty_hash at h
      simp [hge] at h
    · have hlt : layer < st.empty_hashes.length := by omega
      rw [merkle_empty_hash_hit E 0 layer st _ (List.getElem?_eq_getElem hlt)] at h
      simp only [Prod.mk.injEq] at h
      rw [← h.2]
      omega
  | succ m ih =>
    intro st st1 e h
    by_cases hge : layer ≥ st.empty_hashes.length
    · unfold merkle_empty_hash at h
      simp only [hge, if_true] at h
      cases hback : st.empty_hashes.getLast? with
      | none => simp [hback] at h
      | some back =>
        simp only [hback] at h
        cases hh : E.tr_sha256 back back with
        | none =>
          obtain ⟨k1, hk1⟩ := merkle_empty_hash_stuck E layer st.empty_hashes back hback hh hge m
            (st.hash_failures + 1)
          simp only [hh] at h
          rw [hk1] at h
          simp at h
        | some hv =>
          simp only [hh] at h
          have h1 := ih _ _ _ h
          simp only [List.length_append, List.length_singleton] at h1
          rw [h1]
          omega
    · have hlt : layer < st.empty_hashes.length := by omega
      rw [merkle_empty_hash_hit E _ layer st _ (List.getElem?_eq_getElem hlt)] at h
      simp only [Prod.mk.injEq] at h
      rw [← h.2]
      omega

/-- On a table that satisfies the invariant, with every hash succeeding and enough fuel,
the call returns the empty hash of the recursive definition. -/
theorem merkle_empty_hash_spec {D : Type} (E : HashEnv D) (fuel layer : Nat) (st : MemoState D)
    (hsucc : ∀ a b, ∃ h, E.tr_sha256 a b = some h) (hinv : MemoInv E st.empty_hashes)
    (hfuel : layer < st.empty_hashes.length + fuel) :
    ∃ st1, merkle_empty_hash E fuel layer st = (Outcome.ret (emptyHashSpec E layer), st1) ∧
      MemoInv E st1.empty_hashes := by
  obtain ⟨e, st1, hcall⟩ := merkle_empty_hash_total E layer hsucc fuel st hinv.1 hfuel
  obtain ⟨he, hinv1⟩ := merkle_empty_hash_value E fuel layer st st1 e hinv hcall
  exact ⟨st1, by rw [hcall, he], hinv1⟩

theorem MemoInv_length_pos {D : Type} (E : HashEnv D) (tbl : List D) (hinv : MemoInv E tbl) :
    0 < tbl.length :=
  List.length_pos.mpr hinv.1

theorem run_queries_inv {D : Type} (E : HashEnv D) (fuel : Nat) :
    ∀ (qs : List Nat) (st : MemoState D), MemoInv E st.empty_hashes →
      MemoInv E (run_queries E fuel qs st).empty_hashes
  | [], _, hinv => hinv
  | q :: qs, st, hinv =>
    run_queries_inv E fuel qs _ (merkle_empty_hash_inv E q fuel st hinv)

theorem toyPair32_succeeds : ∀ a b, ∃ h, toyPair32 a b = some h :=
  fun _ _ => ⟨_, rfl⟩

/-- C11: with a pair hash that succeeds, and in whatever state the memo table is (any
table reached by earlier calls), `merkle_empty_hash(0)` is the digest of 32 zero bytes and
`merkle_empty_hash(n+1)` is the pair hash of `merkle_empty_hash(n)` with itself. -/
theorem merkle_empty_hash_recursive
    (pair : tr_sha256_digest_t → tr_sha256_digest_t → Option tr_sha256_digest_t)
    (fuel n : Nat) (st0 st1 st2 : MemoState tr_sha256_digest_t)
    (hsucc : ∀ a b, ∃ h, pair a b = some h)
    (hinv0 : MemoInv (sha256Env pair) st0.empty_hashes)
    (hinv1 : MemoInv (sha256Env pair) st1.empty_hashes)
    (hinv2 : MemoInv (sha256Env pair) st2.empty_hashes)
    (hfuel : n + 1 < fuel) :
    (const_digest 0).bytes = List.replicate 32 0 ∧
    merkle_empty_hash (sha256Env pair) fuel 0 st0 = (Outcome.ret (const_digest 0), st0) ∧
    ∃ d d1 s1 s2,
      merkle_empty_hash (sha256Env pair) fuel n st1 = (Outcome.ret d, s1) ∧
      merkle_empty_hash (sha256Env pair) fuel (n + 1) st2 = (Outcome.ret d1, s2) ∧
      pair d d = some d1 := by
  refine ⟨rfl, ?_, ?_⟩
  · apply merkle_empty_hash_hit
    have hpos := MemoInv_length_pos _ _ hinv0
    have hget : st0.empty_hashes[0]? = some (st0.empty_hashes[0]) :=
      List.getElem?_eq_getElem hpos
    rw [hget, hinv0.2 0 _ hget]
    rfl
  · have hp1 := MemoInv_length_pos _ _ hinv1
    have hp2 := MemoInv_length_pos _ _ hinv2
    obtain ⟨s1, h1, _⟩ :=
      merkle_empty_hash_spec (sha256Env pair) fuel n st1 hsucc hinv1 (by omega)
    obtain ⟨s2, h2, _⟩ :=
      merkle_empty_hash_spec (sha256Env pair) fuel (n + 1) st2 hsucc hinv2 (by omega)
    refine ⟨_, _, s1, s2, h1, h2, ?_⟩
    exact pairD_eq_tr_sha256 (sha256Env pair) hsucc _ _

theorem merkle_empty_hash_recursive_witness :
    (const_digest 0).bytes = List.replicate 32 0 ∧
    merkle_empty_hash (sha256Env toyPair32) 5 0 (MemoState.initial (sha256Env toyPair32)) =
      (Outcome.ret (const_digest 0), MemoState.initial (sha256Env toyPair32)) ∧
    ∃ d d1 s1 s2,
      merkle_empty_hash (sha256Env toyPair32) 5 2 (MemoState.initial (sha256Env toyPair32)) =
        (Outcome.ret d, s1) ∧
      merkle_empty_hash (sha256Env toyPair32) 5 (2 + 1)
          (MemoState.initial (sha256Env toyPair32)) = (Outcome.ret d1, s2) ∧
      toyPair32 d d = some d1 :=
  merkle_empty_hash_recursive toyPair32 5 2 (MemoState.initial (sha256Env toyPair32))
    (MemoState.initial (sha256Env toyPair32)) (MemoState.initial (sha256Env toyPair32))
    toyPair32_succeeds (MemoInv_initial _) (MemoInv_initial _) (MemoInv_initial _) (by decide)

/-- C12: with a pair hash that succeeds, after any finite sequence of earlier
`merkle_empty_hash` queries the query for layer `n` returns the same digest as on the
freshly initialised table. -/
theorem merkle_empty_hash_order_independent {D : Type} (E : HashEnv D) (fuel n : Nat)
    (qs : List Nat) (hsucc : ∀ a b, ∃ h, E.tr_sha256 a b = some h) (hfuel : n < fuel) :
    ∃ d, (merkle_empty_hash E fuel n (run_queries E fuel qs (MemoState.initial E))).1 =
        Outcome.ret d ∧
      (merkle_empty_hash E fuel n (MemoState.initial E)).1 = Outcome.ret d := by
  have hinv := run_queries_inv E fuel qs (MemoState.initial E) (MemoInv_initial E)
  have hpos := MemoInv_length_pos _ _ hinv
  have hpos0 := MemoInv_length_pos _ _ (MemoInv_initial E)
  obtain ⟨s1, h1, _⟩ := merkle_empty_hash_spec E fuel n _ hsucc hinv (by omega)
  obtain ⟨s2, h2, _⟩ :=
    merkle_empty_hash_spec E fuel n (MemoState.initial E) hsucc (MemoInv_initial E) (by omega)
  exact ⟨emptyHashSpec E n, by rw [h1], by rw [h2]⟩

theorem merkle_empty_hash_order_independent_witness :
    ∃ d, (merkle_empty_hash toyEnv 10 1 (run_queries toyEnv 10 [7] (MemoState.initial toyEnv))).1 =
        Outcome.ret d ∧
      (merkle_empty_hash toyEnv 10 1 (MemoState.initial toyEnv)).1 = Outcome.ret d :=
  merkle_empty_hash_order_independent toyEnv 10 1 [7] (fun a b => ⟨Nat.pair a b + 1, rfl⟩)
    (by decide)

/-- C13: at the failing input (a pair hash that fails, query for layer 1 on the fresh
table) the call never returns: after any number of iterations the loop is still running,
every iteration was a failed hash and the table is unchanged. -/
theorem merkle_empty_hash_failure_never_returns (fuel : Nat) :
    merkle_empty_hash (sha256Env fun _ _ => none) fuel 1
        (MemoState.initial (sha256Env fun _ _ => none)) =
      (Outcome.out_of_fuel, { empty_hashes := [const_digest 0], hash_failures := fuel }) := by
  have key : ∀ (m k : Nat),
      merkle_empty_hash (sha256Env fun _ _ => none) m 1
          { empty_hashes := [const_digest 0], hash_failures := k } =
        (Outcome.out_of_fuel, { empty_hashes := [const_digest 0], hash_failures := k + m }) := by
    intro m
    induction m with
    | zero =>
      intro k
      unfold merkle_empty_hash
      simp
    | succ j ih =>
      intro k
      unfold merkle_empty_hash
      simp only [List.length_singleton, ge_iff_le, le_refl, if_true, List.getLast?_singleton,
        sha256Env]
      have := ih (k + 1)
      simp only [sha256Env] at this
      rw [this]
      simp only [Prod.mk.injEq, MemoState.mk.injEq, true_and]
      omega
  have := key fuel 0
  simpa [MemoState.initial, sha256Env] using this

/-- C20: the memo table starts as the one-element list with the all-zero digest; a call
of `merkle_empty_hash`, however it ends, only appends to the table, and a call that returns
leaves a non-empty table of length `max(old length, n + 1)`. -/
theorem merkle_empty_hash_table_append_only
    (pair : tr_sha256_digest_t → tr_sha256_digest_t → Option tr_sha256_digest_t)
    (fuel n : Nat) (st st1 : MemoState tr_sha256_digest_t) (e : tr_sha256_digest_t)
    (hret : merkle_empty_hash (sha256Env pair) fuel n st = (Outcome.ret e, st1)) :
    (MemoState.initial (sha256Env pair)).empty_hashes = [const_digest 0] ∧
    (const_digest 0).bytes = List.replicate 32 0 ∧
    (∃ ext, st1.empty_hashes = st.empty_hashes ++ ext) ∧
    st1.empty_hashes.length = max st.empty_hashes.length (n + 1) ∧
    st1.empty_hashes ≠ [] ∧
    st.empty_hashes.length ≤ st1.empty_hashes.length ∧
    ∀ (fuel2 n2 : Nat) (st2 : MemoState tr_sha256_digest_t),
      ∃ ext, (merkle_empty_hash (sha256Env pair) fuel2 n2 st2).2.empty_hashes =
        st2.empty_hashes ++ ext := by
  have hlen := merkle_empty_hash_ret_length (sha256Env pair) n fuel st st1 e hret
  refine ⟨rfl, rfl, (merkle_empty_hash_ret (sha256Env pair) n fuel st st1 e hret).2.2, hlen,
    ?_, ?_, fun fuel2 n2 st2 => merkle_empty_hash_append (sha256Env pair) n2 fuel2 st2⟩
  · intro hnil
    rw [hnil] at hlen
    simp at hlen
    omega
  · rw [hlen]
    exact Nat.le_max_left _ _

theorem merkle_empty_hash_table_append_only_witness :
    (MemoState.initial (sha256Env toyPair32)).empty_hashes = [const_digest 0] ∧
    (const_digest 0).bytes = List.replicate 32 0 ∧
    (∃ ext, (merkle_empty_hash (sha256Env toyPair32) 5 2
        (MemoState.initial (sha256Env toyPair32))).2.empty_hashes =
      (MemoState.initial (sha256Env toyPair32)).empty_hashes ++ ext) ∧
    (merkle_empty_hash (sha256Env toyPair32) 5 2
        (MemoState.initial (sha256Env toyPair32))).2.empty_hashes.length =
      max (MemoState.initial (sha256Env toyPair32)).empty_hashes.length (2 + 1) ∧
    (merkle_empty_hash (sha256Env toyPair32) 5 2
        (MemoState.initial (sha256Env toyPair32))).2.empty_hashes ≠ [] ∧
    (MemoState.initial (sha256Env toyPair32)).empty_hashes.length ≤
      (merkle_empty_hash (sha256Env toyPair32) 5 2
        (MemoState.initial (sha256Env toyPair32))).2.empty_hashes.length ∧
    ∀ (fuel2 n2 : Nat) (st2 : MemoState tr_sha256_digest_t),
      ∃ ext, (merkle_empty_hash (sha256Env toyPair32) fuel2 n2 st2).2.empty_hashes =
        st2.empty_hashes ++ ext :=
  merkle_empty_hash_table_append_only toyPair32 5 2 (MemoState.initial (sha256Env toyPair32))
    (merkle_empty_hash (sha256Env toyPair32) 5 2 (MemoState.initial (sha256Env toyPair32))).2
    (emptyHashSpec (sha256Env toyPair32) 2) (by decide)

/-! ## Shifts evaluated by `calculateLayerNumber` -/

theorem uint_add_le (a b : Nat) : uint_add a b ≤ a + b := by
  unfold uint_add
  exact Nat.mod_le _ _

theorem calculateLayerNumber_traced_eq_probe (p : Int) :
    calculateLayerNumber_traced p =
      (calculateLayerNumber p,
        [uint_add 17 0, uint_add 16 (probe p 17 0), uint_add 8 (probe p 16 (probe p 17 0)),
          uint_add 4 (probe p 8 (probe p 16 (probe p 17 0))),
          uint_add 2 (probe p 4 (probe p 8 (probe p 16 (probe p 17 0)))),
          uint_add 1 (probe p 2 (probe p 4 (probe p 8 (probe p 16 (probe p 17 0))))),
          probe p 1 (probe p 2 (probe p 4 (probe p 8 (probe p 16 (probe p 17 0)))))]) := rfl

theorem shift_in_range (s : Nat) (hs : s ≤ 48) :
    (16384 : Int) * 2 ^ s ≤ 2 ^ 62 ∧ shl_int64 16384 s = 16384 * 2 ^ s := by
  constructor
  · have h48 : (2 : Int) ^ s ≤ 2 ^ 48 := pow_le_pow_right₀ (by norm_num) hs
    calc (16384 : Int) * 2 ^ s ≤ 16384 * 2 ^ 48 := by linarith
      _ = 2 ^ 62 := by norm_num
  · have h := shl_bigga_exact s hs
    have h14 : shl_int64 1 14 = 16384 := by decide
    rw [h14] at h
    exact h

/-- C14: for every `piece_length` the function evaluates exactly seven comparisons, one
shift `bigga << s` each, with `bigga = 16384`; every shift amount is at most 48, so every
shifted value is at most `2^62` and equals `16384 * 2^s` without wrap-around. -/
theorem calculateLayerNumber_shifts_bounded (piece_length : Int) :
    (calculateLayerNumber_traced piece_length).1 = calculateLayerNumber piece_length ∧
    (calculateLayerNumber_traced piece_length).2.length = 7 ∧
    shl_int64 1 14 = 16384 ∧
    ∀ s ∈ (calculateLayerNumber_traced piece_length).2,
      s ≤ 48 ∧ (16384 : Int) * 2 ^ s ≤ 2 ^ 62 ∧ shl_int64 16384 s = 16384 * 2 ^ s := by
  rw [calculateLayerNumber_traced_eq_probe]
  refine ⟨rfl, rfl, by decide, ?_⟩
  have b1 := probe_le piece_length 17 0
  have b2 := probe_le piece_length 16 (probe piece_length 17 0)
  have b3 := probe_le piece_length 8 (probe piece_length 16 (probe piece_length 17 0))
  have b4 := probe_le piece_length 4
    (probe piece_length 8 (probe piece_length 16 (probe piece_length 17 0)))
  have b5 := probe_le piece_length 2
    (probe piece_length 4 (probe piece_length 8 (probe piece_length 16 (probe piece_length 17 0))))
  have b6 := probe_le piece_length 1 (probe piece_length 2
    (probe piece_length 4 (probe piece_length 8 (probe piece_length 16 (probe piece_length 17 0)))))
  have u1 := uint_add_le 17 0
  have u2 := uint_add_le 16 (probe piece_length 17 0)
  have u3 := uint_add_le 8 (probe piece_length 16 (probe piece_length 17 0))
  have u4 := uint_add_le 4
    (probe piece_length 8 (probe piece_length 16 (probe piece_length 17 0)))
  have u5 := uint_add_le 2
    (probe piece_length 4 (probe piece_length 8 (probe piece_length 16 (probe piece_length 17 0))))
  have u6 := uint_add_le 1 (probe piece_length 2
    (probe piece_length 4 (probe piece_length 8 (probe piece_length 16 (probe piece_length 17 0)))))
  intro s hs
  have hs48 : s ≤ 48 := by
    simp only [List.mem_cons, List.mem_singleton, List.not_mem_nil, or_false] at hs
    rcases hs with h | h | h | h | h | h | h <;> rw [h] <;> omega
  exact ⟨hs48, shift_in_range s hs48⟩

/-! ## `reduceMerkleLayerTo` with a target that is not above the layer -/

/-- C16, as amended: when `target_layer` is not greater than the layer number of the
input, `reduceMerkleLayerTo` touches neither the hashes nor the state and returns the
hashes of the input under the layer number `target_layer`. -/
theorem reduceMerkleLayerTo_target_not_above {D : Type} (E : HashEnv D)
    (fuel target_layer : Nat) (layer : merkle_layer D) (st : MemoState D)
    (h : target_layer ≤ layer.1) :
    reduceMerkleLayerTo E fuel target_layer layer st =
      (Outcome.ret (target_layer, layer.2), st) := by
  have h0 : target_layer - layer.1 = 0 := by omega
  simp [reduceMerkleLayerTo, h0, reduceMerkleLayerTo_loop, andThen]

theorem reduceMerkleLayerTo_target_not_above_witness :
    reduceMerkleLayerTo toyEnv 10 0 (1, [1, 2]) (MemoState.initial toyEnv) =
      (Outcome.ret (0, [1, 2]), MemoState.initial toyEnv) :=
  reduceMerkleLayerTo_target_not_above toyEnv 10 0 (1, [1, 2]) (MemoState.initial toyEnv)
    (by decide)

/-- C16, counterexample: for the layer `(1, [d1, d2])` and the target 0, which is not
greater than 1, the result carries the layer number 0 and so is not the input layer. -/
theorem reduceMerkleLayerTo_lower_target_changes_layer_number :
    0 ≤ (1 : Nat) ∧
    (reduceMerkleLayerTo (sha256Env toyPair32) 10 0 (1, [const_digest 1, const_digest 2])
        (MemoState.initial (sha256Env toyPair32))).1 =
      Outcome.ret (0, [const_digest 1, const_digest 2]) ∧
    (reduceMerkleLayerTo (sha256Env toyPair32) 10 0 (1, [const_digest 1, const_digest 2])
        (MemoState.initial (sha256Env toyPair32))).1 ≠
      Outcome.ret (1, [const_digest 1, const_digest 2]) := by
  decide

/-! ## `hashBlock` -/

/-- C17: `hashBlock` of a buffer of length 0 is the all-zero 32-byte digest, which is
what `merkle_empty_hash(0)` returns, and the hash primitive is not called; for a buffer
that is not empty it is the result of the primitive on that buffer, called once. -/
theorem hashBlock_spec
    (pair : tr_sha256_digest_t → tr_sha256_digest_t → Option tr_sha256_digest_t)
    (tr_sha256_block : List Byte → Option tr_sha256_digest_t) (arg : List Byte) :
    (arg.length = 0 →
      hashBlock (sha256Env pair) tr_sha256_block arg = (some (const_digest 0), [])) ∧
    (const_digest 0).bytes = List.replicate 32 0 ∧
    (∀ (fuel : Nat) (st : MemoState tr_sha256_digest_t),
      MemoInv (sha256Env pair) st.empty_hashes →
      merkle_empty_hash (sha256Env pair) fuel 0 st = (Outcome.ret (const_digest 0), st)) ∧
    (arg.length ≠ 0 →
      hashBlock (sha256Env pair) tr_sha256_block arg = (tr_sha256_block arg, [arg])) := by
  refine ⟨?_, rfl, ?_, ?_⟩
  · intro h
    simp [hashBlock, h, sha256Env]
  · intro fuel st hinv
    apply merkle_empty_hash_hit
    have hpos := MemoInv_length_pos _ _ hinv
    have hget : st.empty_hashes[0]? = some (st.empty_hashes[0]) :=
      List.getElem?_eq_getElem hpos
    rw [hget, hinv.2 0 _ hget]
    rfl
  · intro h
    simp [hashBlock, h]

theorem hashBlock_spec_witness :
    (hashBlock (sha256Env toyPair32) (fun _ => some (const_digest 9)) [] =
        (some (const_digest 0), [])) ∧
      merkle_empty_hash (sha256Env toyPair32) 3 0 (MemoState.initial (sha256Env toyPair32)) =
        (Outcome.ret (const_digest 0), MemoState.initial (sha256Env toyPair32)) ∧
      hashBlock (sha256Env toyPair32) (fun _ => some (const_digest 9)) [1, 2] =
        (some (const_digest 9), [[1, 2]]) :=
  ⟨(hashBlock_spec toyPair32 (fun _ => some (const_digest 9)) []).1 (by decide),
    (hashBlock_spec toyPair32 (fun _ => some (const_digest 9)) []).2.2.1 3
      (MemoState.initial (sha256Env toyPair32)) (MemoInv_initial _),
    (hashBlock_spec toyPair32 (fun _ => some (const_digest 9)) [1, 2]).2.2.2 (by decide)⟩

/-! ## Repeated reduction -/

/-- With every hash succeeding, all reductions of non-empty lists at one layer from one
state end in the same state. -/
theorem reduceMerkleLayer_spec_state {D : Type} (E : HashEnv D) (fuel L : Nat)
    (st : MemoState D) (hsucc : ∀ a b, ∃ h, E.tr_sha256 a b = some h)
    (hinv : MemoInv E st.empty_hashes) (hfuel : L < st.empty_hashes.length + fuel) :
    ∃ st0, MemoInv E st0.empty_hashes ∧
      merkle_empty_hash E fuel L st = (Outcome.ret (emptyHashSpec E L), st0) ∧
      ∀ xs : List D, xs ≠ [] →
        reduceMerkleLayer E fuel L xs st =
          (Outcome.ret (reduceSpec E (emptyHashSpec E L) xs), st0) := by
  obtain ⟨st0, hcall, hinv0⟩ := merkle_empty_hash_spec E fuel L st hsucc hinv hfuel
  refine ⟨st0, hinv0, hcall, ?_⟩
  intro xs hne
  rw [reduceMerkleLayer_eq E fuel L hsucc st st0 _ hcall xs]
  have hlen : xs.length ≠ 0 := fun h => hne (List.length_eq_zero.mp h)
  simp [hlen]

theorem reduceMerkleLayer_times_spec {D : Type} (E : HashEnv D) (fuel : Nat)
    (hsucc : ∀ a b, ∃ h, E.tr_sha256 a b = some h) :
    ∀ (k cur_layer : Nat) (hashes : List D) (st : MemoState D),
      MemoInv E st.empty_hashes → cur_layer + k ≤ fuel →
      ∃ st1, reduceMerkleLayer_times E fuel k cur_layer hashes st =
          (Outcome.ret (reduceSpec_times E k cur_layer hashes), st1) ∧
        MemoInv E st1.empty_hashes := by
  intro k
  induction k with
  | zero =>
    intro cur_layer hashes st hinv _
    exact ⟨st, rfl, hinv⟩
  | succ j ih =>
    intro cur_layer hashes st hinv hfuel
    obtain ⟨st0, hred, hinv0⟩ :=
      reduceMerkleLayer_spec E fuel cur_layer hashes st hsucc hinv (by omega)
    obtain ⟨st1, htimes, hinv1⟩ :=
      ih (cur_layer + 1) (reduceSpec E (emptyHashSpec E cur_layer) hashes) st0 hinv0 (by omega)
    refine ⟨st1, ?_, hinv1⟩
    simp only [reduceMerkleLayer_times, reduceSpec_times, hred, andThen, htimes]

/-- The loop of `reduceMerkleLayerTo` runs `layer_number - cur_layer` reductions, at the
layer numbers from `cur_layer` up, when `layer_number` fits a `uint`. -/
theorem reduceMerkleLayerTo_loop_eq_times {D : Type} (E : HashEnv D)
    (fuel layer_number : Nat) (hfit : layer_number < 2 ^ 32) :
    ∀ (n cur_layer : Nat) (out : List D) (st : MemoState D), cur_layer + n = layer_number →
      reduceMerkleLayerTo_loop E fuel layer_number n cur_layer out st =
        reduceMerkleLayer_times E fuel n cur_layer out st := by
  intro n
  induction n with
  | zero =>
    intro cur_layer out st _
    rfl
  | succ j ih =>
    intro cur_layer out st hsum
    have hlt : cur_layer < layer_number := by omega
    have hadd : uint_add cur_layer 1 = cur_layer + 1 := by
      unfold uint_add
      exact Nat.mod_eq_of_lt (by omega)
    simp only [reduceMerkleLayerTo_loop, reduceMerkleLayer_times, if_pos hlt, hadd]
    congr 1
    funext out1 st1
    exact ih (cur_layer + 1) out1 st1 (by omega)

theorem ceil_half_step (a k : Nat) :
    ((a + 1) / 2 + 2 ^ k - 1) / 2 ^ k = (a + 2 ^ (k + 1) - 1) / 2 ^ (k + 1) := by
  have hpos : 0 < 2 ^ k := Nat.pow_pos (by norm_num)
  have hpow : 2 ^ (k + 1) = 2 * 2 ^ k := by ring
  have h1 : (a + 1) / 2 + 2 ^ k - 1 = (a + 2 ^ (k + 1) - 1) / 2 := by
    rw [hpow]
    omega
  rw [h1, Nat.div_div_eq_div_mul, hpow]

theorem reduceSpec_times_length {D : Type} (E : HashEnv D) :
    ∀ (k cur_layer : Nat) (hashes : List D),
      (reduceSpec_times E k cur_layer hashes).length =
        (hashes.length + 2 ^ k - 1) / 2 ^ k := by
  intro k
  induction k with
  | zero =>
    intro cur_layer hashes
    simp [reduceSpec_times]
  | succ j ih =>
    intro cur_layer hashes
    simp only [reduceSpec_times]
    rw [ih, reduceSpec_length, ceil_half_step]

/-- C15: with every pair hash succeeding and `target_layer >= L`, `reduceMerkleLayerTo`
returns a layer with number `target_layer` whose hashes are those of `target_layer - L`
applications of `reduceMerkleLayer` at the layer numbers `L, L+1, ...`, and the hash list
has length `ceil(len(hashes) / 2^(target_layer - L))`. -/
theorem reduceMerkleLayerTo_spec {D : Type} (E : HashEnv D) (fuel target_layer L : Nat)
    (hashes : List D) (st : MemoState D) (hsucc : ∀ a b, ∃ h, E.tr_sha256 a b = some h)
    (hinv : MemoInv E st.empty_hashes) (hge : L ≤ target_layer)
    (hfit : target_layer < 2 ^ 32) (hfuel : target_layer ≤ fuel) :
    ∃ out st1,
      reduceMerkleLayerTo E fuel target_layer (L, hashes) st =
        (Outcome.ret (target_layer, out), st1) ∧
      reduceMerkleLayer_times E fuel (target_layer - L) L hashes st = (Outcome.ret out, st1) ∧
      out.length = (hashes.length + 2 ^ (target_layer - L) - 1) / 2 ^ (target_layer - L) := by
  obtain ⟨st1, htimes, _⟩ :=
    reduceMerkleLayer_times_spec E fuel hsucc (target_layer - L) L hashes st hinv (by omega)
  refine ⟨_, st1, ?_, htimes, reduceSpec_times_length E (target_layer - L) L hashes⟩
  simp only [reduceMerkleLayerTo]
  rw [reduceMerkleLayerTo_loop_eq_times E fuel target_layer hfit (target_layer - L) L hashes st
    (by omega), htimes]
  rfl

theorem reduceMerkleLayerTo_spec_witness :
    ∃ out st1,
      reduceMerkleLayerTo toyEnv 10 2 (0, [1, 2, 3, 4, 5]) (MemoState.initial toyEnv) =
        (Outcome.ret (2, out), st1) ∧
      reduceMerkleLayer_times toyEnv 10 (2 - 0) 0 [1, 2, 3, 4, 5] (MemoState.initial toyEnv) =
        (Outcome.ret out, st1) ∧
      out.length = ([1, 2, 3, 4, 5].length + 2 ^ (2 - 0) - 1) / 2 ^ (2 - 0) :=
  reduceMerkleLayerTo_spec toyEnv 10 2 0 [1, 2, 3, 4, 5] (MemoState.initial toyEnv)
    (fun a b => ⟨Nat.pair a b + 1, rfl⟩) (MemoInv_initial toyEnv) (by decide) (by decide)
    (by decide)

/-! ## Number of reductions on the way to the root -/

/-- The loop of `reduceMerkleLayerToRoot` is `k` reductions when `k` is the least number
with `len(out) <= 2^k` and the bound is not in the way. -/
theorem reduceMerkleLayerToRoot_loop_eq_times {D : Type} (E : HashEnv D) (fuel : Nat)
    (hsucc : ∀ a b, ∃ h, E.tr_sha256 a b = some h) (hfuel : MAX_LAYER ≤ fuel) :
    ∀ (k n cur_layer : Nat) (out : List D) (st : MemoState D), MemoInv E st.empty_hashes →
      k ≤ n → cur_layer + k ≤ MAX_LAYER → 1 ≤ out.length → out.length ≤ 2 ^ k →
      (∀ j, j < k → 2 ^ j < out.length) →
      reduceMerkleLayerToRoot_loop E fuel n cur_layer out st =
        reduceMerkleLayer_times E fuel k cur_layer out st := by
  intro k
  induction k with
  | zero =>
    intro n cur_layer out st _ _ _ h1 h2 _
    have hlen : ¬ out.length > 1 := by simp at h2; omega
    cases n with
    | zero => rfl
    | succ n1 =>
      simp only [reduceMerkleLayerToRoot_loop, reduceMerkleLayer_times]
      rw [if_neg (fun h => hlen h.2)]
  | succ j ih =>
    intro n cur_layer out st hinv hkn hcur h1 h2 hmin
    obtain ⟨n1, hn1⟩ : ∃ n1, n = n1 + 1 := ⟨n - 1, by omega⟩
    subst hn1
    have h0 := hmin 0 (by omega)
    have hguard : cur_layer < MAX_LAYER ∧ out.length > 1 := ⟨by omega, by simpa using h0⟩
    obtain ⟨st0, hred, hinv0⟩ :=
      reduceMerkleLayer_spec E fuel cur_layer out st hsucc hinv (by omega)
    have hlen := reduceSpec_length E (emptyHashSpec E cur_layer) out
    have hpow : 2 ^ (j + 1) = 2 * 2 ^ j := by ring
    simp only [reduceMerkleLayerToRoot_loop, reduceMerkleLayer_times, if_pos hguard, hred,
      andThen, uint_add_small cur_layer hguard.1]
    apply ih n1 (cur_layer + 1) _ st0 hinv0 (by omega) (by omega)
    · rw [hlen]; omega
    · rw [hlen]; omega
    · intro i hi
      have hi1 := hmin (i + 1) (by omega)
      have hpowi : 2 ^ (i + 1) = 2 * 2 ^ i := by ring
      rw [hlen]
      omega

theorem ceil_div_eq_one (n p : Nat) (h1 : 1 ≤ n) (h2 : n ≤ p) : (n + p - 1) / p = 1 := by
  apply Nat.div_eq_of_lt_le
  · omega
  · omega

theorem ceil_div_gt_one (n p : Nat) (hp : 0 < p) (h : p < n) : 1 < (n + p - 1) / p := by
  have h2 : 2 ≤ (n + p - 1) / p := by
    rw [Nat.le_div_iff_mul_le hp]
    omega
  omega

/-- C18: with every pair hash succeeding, `L < 100` and `1 <= n <= 2^(100-L)` hashes,
`reduceMerkleLayerToRoot` returns a digest `d` that is the single result of exactly
`ceil(log2 n)` reductions: after fewer reductions more than one digest remains, a layer
of one hash is returned as it is, and `d` is the only hash of
`reduceMerkleLayerTo(L + ceil(log2 n), (L, hashes))`. -/
theorem reduceMerkleLayerToRoot_reduction_count {D : Type} (E : HashEnv D) (fuel L : Nat)
    (hashes : List D) (st : MemoState D) (hsucc : ∀ a b, ∃ h, E.tr_sha256 a b = some h)
    (hinv : MemoInv E st.empty_hashes) (hfuel : 100 ≤ fuel) (hL : L < 100)
    (h1 : 1 ≤ hashes.length) (h2 : hashes.length ≤ 2 ^ (100 - L)) :
    ∃ d st1,
      reduceMerkleLayerToRoot E fuel (L, hashes) st = (Outcome.ret d, st1) ∧
      reduceMerkleLayer_times E fuel (Nat.clog 2 hashes.length) L hashes st =
        (Outcome.ret [d], st1) ∧
      (∀ j, j < Nat.clog 2 hashes.length →
        ∃ outj stj, reduceMerkleLayer_times E fuel j L hashes st = (Outcome.ret outj, stj) ∧
          1 < outj.length) ∧
      (hashes.length = 1 → hashes = [d] ∧ st1 = st) ∧
      reduceMerkleLayerTo E fuel (L + Nat.clog 2 hashes.length) (L, hashes) st =
        (Outcome.ret (L + Nat.clog 2 hashes.length, [d]), st1) := by
  have hk_le : Nat.clog 2 hashes.length ≤ 100 - L :=
    (Nat.le_pow_iff_clog_le (by norm_num)).mp h2
  have hle : hashes.length ≤ 2 ^ Nat.clog 2 hashes.length := Nat.le_pow_clog (by norm_num) _
  have hmin : ∀ j, j < Nat.clog 2 hashes.length → 2 ^ j < hashes.length :=
    fun j hj => (Nat.pow_lt_iff_lt_clog (by norm_num)).mpr hj
  have hone : hashes.length = 1 → Nat.clog 2 hashes.length = 0 := by
    intro hn
    rw [hn]
    exact Nat.clog_one_right 2
  generalize Nat.clog 2 hashes.length = k at hk_le hle hmin hone
  have hloop := reduceMerkleLayerToRoot_loop_eq_times E fuel hsucc (by unfold MAX_LAYER; omega)
    k (MAX_LAYER - L) L hashes st hinv (by unfold MAX_LAYER; omega)
    (by unfold MAX_LAYER; omega) h1 hle hmin
  obtain ⟨st1, htimes, _⟩ :=
    reduceMerkleLayer_times_spec E fuel hsucc k L hashes st hinv (by omega)
  have hlen1 : (reduceSpec_times E k L hashes).length = 1 := by
    rw [reduceSpec_times_length]
    exact ceil_div_eq_one _ _ h1 hle
  obtain ⟨d, hd⟩ := List.length_eq_one.mp hlen1
  rw [hd] at htimes
  refine ⟨d, st1, ?_, htimes, ?_, ?_, ?_⟩
  · simp only [reduceMerkleLayerToRoot]
    rw [hloop, htimes]
    rfl
  · intro j hj
    obtain ⟨stj, hj1, _⟩ :=
      reduceMerkleLayer_times_spec E fuel hsucc j L hashes st hinv (by omega)
    refine ⟨_, stj, hj1, ?_⟩
    rw [reduceSpec_times_length]
    exact ceil_div_gt_one _ _ (Nat.pow_pos (by norm_num)) (hmin j hj)
  · intro hn
    have hk0 := hone hn
    subst hk0
    simp only [reduceMerkleLayer_times, Prod.mk.injEq, Outcome.ret.injEq] at htimes
    exact ⟨htimes.1, htimes.2.symm⟩
  · simp only [reduceMerkleLayerTo]
    rw [reduceMerkleLayerTo_loop_eq_times E fuel (L + k) (by omega) (L + k - L) L hashes st
      (by omega)]
    have hsub : L + k - L = k := by omega
    rw [hsub, htimes]
    rfl

theorem reduceMerkleLayerToRoot_reduction_count_witness :
    ∃ d st1,
      reduceMerkleLayerToRoot toyEnv 100 (0, [1, 2, 3]) (MemoState.initial toyEnv) =
        (Outcome.ret d, st1) ∧
      reduceMerkleLayer_times toyEnv 100 (Nat.clog 2 [1, 2, 3].length) 0 [1, 2, 3]
          (MemoState.initial toyEnv) = (Outcome.ret [d], st1) ∧
      (∀ j, j < Nat.clog 2 [1, 2, 3].length →
        ∃ outj stj, reduceMerkleLayer_times toyEnv 100 j 0 [1, 2, 3]
            (MemoState.initial toyEnv) = (Outcome.ret outj, stj) ∧
          1 < outj.length) ∧
      ([1, 2, 3].length = 1 → [1, 2, 3] = [d] ∧ st1 = MemoState.initial toyEnv) ∧
      reduceMerkleLayerTo toyEnv 100 (0 + Nat.clog 2 [1, 2, 3].length) (0, [1, 2, 3])
          (MemoState.initial toyEnv) =
        (Outcome.ret (0 + Nat.clog 2 [1, 2, 3].length, [d]), st1) :=
  reduceMerkleLayerToRoot_reduction_count toyEnv 100 0 [1, 2, 3] (MemoState.initial toyEnv)
    (fun a b => ⟨Nat.pair a b + 1, rfl⟩) (MemoInv_initial toyEnv) (by decide) (by decide)
    (by decide) (by decide)

/-! ## Trailing empty hashes -/

theorem reduceSpec_replicate {D : Type} (E : HashEnv D) (e : D) :
    ∀ k : Nat, reduceSpec E e (List.replicate k e) = List.replicate ((k + 1) / 2) (pairD E e e)
  | 0 => by simp [reduceSpec]
  | 1 => by simp [reduceSpec]
  | k + 2 => by
    have ih := reduceSpec_replicate E e k
    have hk : (k + 2 + 1) / 2 = (k + 1) / 2 + 1 := by omega
    simp only [List.replicate_succ, reduceSpec, ih, hk]

theorem reduceSpec_pad {D : Type} (E : HashEnv D) (e : D) :
    ∀ (xs : List D) (k : Nat),
      reduceSpec E e (xs ++ List.replicate k e) =
        reduceSpec E e xs ++
          List.replicate ((xs.length + k + 1) / 2 - (xs.length + 1) / 2) (pairD E e e)
  | [], k => by
    simp [reduceSpec, reduceSpec_replicate]
  | [a], 0 => by simp [reduceSpec]
  | [a], k + 1 => by
    have hk : (1 + (k + 1) + 1) / 2 - (1 + 1) / 2 = (k + 1) / 2 := by omega
    simp only [List.singleton_append, List.replicate_succ, reduceSpec, reduceSpec_replicate,
      List.length_singleton, hk, List.cons_append, List.nil_append]
  | a :: b :: rest, k => by
    have ih := reduceSpec_pad E e rest k
    have hk : ((a :: b :: rest).length + k + 1) / 2 - ((a :: b :: rest).length + 1) / 2 =
        (rest.length + k + 1) / 2 - (rest.length + 1) / 2 := by
      simp only [List.length_cons]
      omega
    rw [hk]
    simp only [List.cons_append, reduceSpec]
    exact congrArg (List.cons (pairD E a b)) ih

/-- A list of at most `2^r` and more than `2^(r-1)` hashes, and the same list filled up
to `2^r` with the empty hash of its layer, go through the loop of
`reduceMerkleLayerToRoot` to the same result. -/
theorem reduceMerkleLayerToRoot_loop_pad {D : Type} (E : HashEnv D) (fuel : Nat)
    (hsucc : ∀ a b, ∃ h, E.tr_sha256 a b = some h) (hfuel : MAX_LAYER ≤ fuel) :
    ∀ (r n cur_layer : Nat) (xs : List D) (st : MemoState D), MemoInv E st.empty_hashes →
      r ≤ n → cur_layer + r ≤ MAX_LAYER → xs.length ≤ 2 ^ r → 2 ^ r < 2 * xs.length →
      reduceMerkleLayerToRoot_loop E fuel n cur_layer
          (xs ++ List.replicate (2 ^ r - xs.length) (emptyHashSpec E cur_layer)) st =
        reduceMerkleLayerToRoot_loop E fuel n cur_layer xs st := by
  intro r
  induction r with
  | zero =>
    intro n cur_layer xs st _ _ _ h1 _
    have h0 : 2 ^ 0 - xs.length = 0 := by simp at h1 ⊢; omega
    rw [h0]
    simp
  | succ q ih =>
    intro n cur_layer xs st hinv hrn hcur h1 h2
    obtain ⟨n1, hn1⟩ : ∃ n1, n = n1 + 1 := ⟨n - 1, by omega⟩
    subst hn1
    have hpow : 2 ^ (q + 1) = 2 * 2 ^ q := by ring
    have hqpos : 0 < 2 ^ q := Nat.pow_pos (by norm_num)
    have hxs : 1 < xs.length := by omega
    have hpos := MemoInv_length_pos _ _ hinv
    obtain ⟨st0, hinv0, _, hred⟩ :=
      reduceMerkleLayer_spec_state E fuel cur_layer st hsucc hinv (by omega)
    have hne : xs ≠ [] := by
      intro h
      rw [h] at hxs
      simp at hxs
    have hne2 : xs ++ List.replicate (2 ^ (q + 1) - xs.length) (emptyHashSpec E cur_layer) ≠
        [] := by
      simp [hne]
    have hg1 : cur_layer < MAX_LAYER ∧ xs.length > 1 := ⟨by omega, hxs⟩
    have hg2 : cur_layer < MAX_LAYER ∧
        (xs ++ List.replicate (2 ^ (q + 1) - xs.length) (emptyHashSpec E cur_layer)).length >
          1 := by
      refine ⟨by omega, ?_⟩
      simp only [List.length_append, List.length_replicate]
      omega
    have hlen := reduceSpec_length E (emptyHashSpec E cur_layer) xs
    have hcount : (xs.length + (2 ^ (q + 1) - xs.length) + 1) / 2 - (xs.length + 1) / 2 =
        2 ^ q - (reduceSpec E (emptyHashSpec E cur_layer) xs).length := by
      rw [hlen]
      omega
    simp only [reduceMerkleLayerToRoot_loop, if_pos hg1, if_pos hg2, hred xs hne,
      hred _ hne2, andThen, uint_add_small cur_layer hg1.1]
    rw [reduceSpec_pad, hcount]
    have hnext : pairD E (emptyHashSpec E cur_layer) (emptyHashSpec E cur_layer) =
        emptyHashSpec E (cur_layer + 1) := rfl
    rw [hnext]
    apply ih n1 (cur_layer + 1) _ st0 hinv0 (by omega) (by omega)
    · rw [hlen]; omega
    · rw [hlen]; omega

/-- C19: with every pair hash succeeding, `n >= 1` hashes at layer `L`, `2^m` the least
power of two that is at least `n` and `L + m <= 100`: reducing the hashes to the root gives
the same result as reducing the hashes followed by `2^m - n` copies of
`merkle_empty_hash(L)`; and for odd `n` one reduction of the hashes followed by one such
copy is the reduction of the hashes. -/
theorem reduceMerkleLayerToRoot_padding {D : Type} (E : HashEnv D) (fuel L m : Nat)
    (hashes : List D) (st : MemoState D) (hsucc : ∀ a b, ∃ h, E.tr_sha256 a b = some h)
    (hinv : MemoInv E st.empty_hashes) (hfuel : 100 ≤ fuel) (h1 : 1 ≤ hashes.length)
    (hm : hashes.length ≤ 2 ^ m) (hleast : ∀ j, j < m → 2 ^ j < hashes.length)
    (hL : L + m ≤ 100) :
    ∃ e st0, merkle_empty_hash E fuel L st = (Outcome.ret e, st0) ∧
      (∃ d st1, reduceMerkleLayerToRoot E fuel (L, hashes) st = (Outcome.ret d, st1) ∧
        reduceMerkleLayerToRoot E fuel
            (L, hashes ++ List.replicate (2 ^ m - hashes.length) e) st =
          (Outcome.ret d, st1)) ∧
      (hashes.length % 2 = 1 →
        reduceMerkleLayer E fuel L (hashes ++ [e]) st = reduceMerkleLayer E fuel L hashes st) := by
  have hpos := MemoInv_length_pos _ _ hinv
  have hMAX : MAX_LAYER = 100 := rfl
  obtain ⟨st0, _, hcall, hred⟩ :=
    reduceMerkleLayer_spec_state E fuel L st hsucc hinv (by omega)
  refine ⟨emptyHashSpec E L, st0, hcall, ?_, ?_⟩
  · have hloop := reduceMerkleLayerToRoot_loop_eq_times E fuel hsucc (by omega)
      m (MAX_LAYER - L) L hashes st hinv (by omega) (by omega) h1 hm hleast
    obtain ⟨st1, htimes, _⟩ :=
      reduceMerkleLayer_times_spec E fuel hsucc m L hashes st hinv (by omega)
    have hlen1 : (reduceSpec_times E m L hashes).length = 1 := by
      rw [reduceSpec_times_length]
      exact ceil_div_eq_one _ _ h1 hm
    obtain ⟨d, hd⟩ := List.length_eq_one.mp hlen1
    rw [hd] at htimes
    have hroot : reduceMerkleLayerToRoot E fuel (L, hashes) st = (Outcome.ret d, st1) := by
      simp only [reduceMerkleLayerToRoot]
      rw [hloop, htimes]
      rfl
    refine ⟨d, st1, hroot, ?_⟩
    have h2 : 2 ^ m < 2 * hashes.length := by
      cases m with
      | zero => simp; omega
      | succ q =>
        have := hleast q (by omega)
        have hpow : 2 ^ (q + 1) = 2 * 2 ^ q := by ring
        omega
    have hpad := reduceMerkleLayerToRoot_loop_pad E fuel hsucc (by omega) m (MAX_LAYER - L) L
      hashes st hinv (by omega) (by omega) hm h2
    rw [← hroot]
    simp only [reduceMerkleLayerToRoot]
    rw [hpad]
  · intro hodd
    have hne : hashes ≠ [] := by
      intro h
      rw [h] at h1
      simp at h1
    rw [hred hashes hne, hred (hashes ++ [emptyHashSpec E L]) (by simp)]
    have hpadone := reduceSpec_pad E (emptyHashSpec E L) hashes 1
    have hzero : (hashes.length + 1 + 1) / 2 - (hashes.length + 1) / 2 = 0 := by omega
    rw [hzero] at hpadone
    simp only [List.replicate_one, List.replicate_zero, List.append_nil] at hpadone
    rw [hpadone]

theorem reduceMerkleLayerToRoot_padding_witness :
    ∃ e st0, merkle_empty_hash toyEnv 100 0 (MemoState.initial toyEnv) = (Outcome.ret e, st0) ∧
      (∃ d st1,
        reduceMerkleLayerToRoot toyEnv 100 (0, [1, 2, 3]) (MemoState.initial toyEnv) =
          (Outcome.ret d, st1) ∧
        reduceMerkleLayerToRoot toyEnv 100
            (0, [1, 2, 3] ++ List.replicate (2 ^ 2 - [1, 2, 3].length) e)
            (MemoState.initial toyEnv) = (Outcome.ret d, st1)) ∧
      ([1, 2, 3].length % 2 = 1 →
        reduceMerkleLayer toyEnv 100 0 ([1, 2, 3] ++ [e]) (MemoState.initial toyEnv) =
          reduceMerkleLayer toyEnv 100 0 [1, 2, 3] (MemoState.initial toyEnv)) :=
  reduceMerkleLayerToRoot_padding toyEnv 100 0 2 [1, 2, 3] (MemoState.initial toyEnv)
    (fun a b => ⟨Nat.pair a b + 1, rfl⟩) (MemoInv_initial toyEnv) (by decide) (by decide)
    (by decide) (by decide) (by decide)

/-! ## Hash failures that do not repeat -/

/-- C6: at the failing input (layer 0 with three hashes, a primitive whose call number 2,
the first attempt to extend the memo table to layer 1, fails and whose other calls
succeed) one pair hash has failed during the reduction and `validatePieceLayers` returns
true for the root found. -/
theorem validatePieceLayers_true_after_failed_hash :
    Transient.validatePieceLayers failOnceEnv 10 (const_digest 15)
        (0, [const_digest 1, const_digest 2, const_digest 3]) (CallState.initial failOnceEnv) =
      (Outcome.ret true,
        { empty_hashes := [const_digest 0, const_digest 1], hash_failures := 1,
          hash_calls := 5 }) := by
  decide

theorem forgetCalls_andThen {α β D : Type} (x : Outcome α × CallState D)
    (f : α → CallState D → Outcome β × CallState D)
    (g : α → MemoState D → Outcome β × MemoState D)
    (hfg : ∀ a s, forgetCalls (f a s) = g a s.toMemoState) :
    forgetCalls (andThen x f) = andThen (forgetCalls x) g := by
  obtain ⟨o, s⟩ := x
  cases o with
  | ret a => exact hfg a s
  | out_of_range => rfl
  | out_of_fuel => rfl

/-- With a primitive that gives at every call what the pair hash of `E` gives, the
call-by-call `merkle_empty_hash` is the one defined first. -/
theorem transient_merkle_empty_hash_agrees {D : Type} (E : HashEnv D) (layer : Nat) :
    ∀ (fuel : Nat) (st : CallState D),
      forgetCalls (Transient.merkle_empty_hash (CallEnv.ofHashEnv E) fuel layer st) =
        merkle_empty_hash E fuel layer st.toMemoState := by
  intro fuel
  induction fuel with
  | zero =>
    intro st
    unfold Transient.merkle_empty_hash merkle_empty_hash
    by_cases hge : layer ≥ st.empty_hashes.length
    · simp [hge, CallState.toMemoState, forgetCalls]
    · simp only [CallState.toMemoState, hge, if_false]
      cases st.empty_hashes[layer]? <;> rfl
  | succ m ih =>
    intro st
    unfold Transient.merkle_empty_hash merkle_empty_hash
    by_cases hge : layer ≥ st.empty_hashes.length
    · simp only [CallState.toMemoState, hge, if_true]
      cases hback : st.empty_hashes.getLast? with
      | none => rfl
      | some back =>
        cases hh : E.tr_sha256 back back with
        | none =>
          simp only [Transient.tr_sha256, CallEnv.ofHashEnv, hh]
          exact ih _
        | some hv =>
          simp only [Transient.tr_sha256, CallEnv.ofHashEnv, hh]
          exact ih _
    · simp only [CallState.toMemoState, hge, if_false]
      cases st.empty_hashes[layer]? <;> rfl

theorem transient_reduceMerkleLayer_loop_agrees {D : Type} (E : HashEnv D)
    (fuel layer_number : Nat) :
    ∀ (xs out : List D) (st : CallState D),
      forgetCalls (Transient.reduceMerkleLayer_loop (CallEnv.ofHashEnv E) fuel layer_number
          xs out st) =
        reduceMerkleLayer_loop E fuel layer_number xs out st.toMemoState
  | [], out, st => rfl
  | [l], out, st => by
    simp only [Transient.reduceMerkleLayer_loop, reduceMerkleLayer_loop]
    rw [← transient_merkle_empty_hash_agrees E layer_number fuel st]
    apply forgetCalls_andThen
    intro r s
    cases hh : E.tr_sha256 l r <;>
      simp [Transient.tr_sha256, CallEnv.ofHashEnv, hh, forgetCalls, CallState.toMemoState]
  | l :: r :: rest, out, st => by
    simp only [Transient.reduceMerkleLayer_loop, reduceMerkleLayer_loop]
    rw [← transient_merkle_empty_hash_agrees E layer_number fuel st]
    apply forgetCalls_andThen
    intro e s
    cases hh : E.tr_sha256 l r with
    | none =>
      simp [Transient.tr_sha256, CallEnv.ofHashEnv, hh, forgetCalls, CallState.toMemoState]
    | some pv =>
      simp only [Transient.tr_sha256, CallEnv.ofHashEnv, hh]
      exact transient_reduceMerkleLayer_loop_agrees E fuel layer_number rest (out ++ [pv]) _

theorem transient_reduceMerkleLayerToRoot_loop_agrees {D : Type} (E : HashEnv D) (fuel : Nat) :
    ∀ (n cur_layer : Nat) (out : List D) (st : CallState D),
      forgetCalls (Transient.reduceMerkleLayerToRoot_loop (CallEnv.ofHashEnv E) fuel n
          cur_layer out st) =
        reduceMerkleLayerToRoot_loop E fuel n cur_layer out st.toMemoState := by
  intro n
  induction n with
  | zero =>
    intro cur_layer out st
    rfl
  | succ m ih =>
    intro cur_layer out st
    simp only [Transient.reduceMerkleLayerToRoot_loop, reduceMerkleLayerToRoot_loop]
    by_cases hc : cur_layer < MAX_LAYER ∧ out.length > 1
    · rw [if_pos hc, if_pos hc]
      unfold Transient.reduceMerkleLayer reduceMerkleLayer
      rw [← transient_reduceMerkleLayer_loop_agrees E fuel cur_layer out [] st]
      apply forgetCalls_andThen
      intro out1 s
      exact ih _ out1 s
    · rw [if_neg hc, if_neg hc]
      rfl

theorem transient_reduceMerkleLayerToRoot_agrees {D : Type} (E : HashEnv D) (fuel : Nat)
    (layer : merkle_layer D) (st : CallState D) :
    forgetCalls (Transient.reduceMerkleLayerToRoot (CallEnv.ofHashEnv E) fuel layer st) =
      reduceMerkleLayerToRoot E fuel layer st.toMemoState := by
  unfold Transient.reduceMerkleLayerToRoot reduceMerkleLayerToRoot
  rw [← transient_reduceMerkleLayerToRoot_loop_agrees E fuel _ _ _ st]
  apply forgetCalls_andThen
  intro out s
  cases out[0]? <;> rfl

/-- With a primitive whose result does not depend on the number of the call, the
call-by-call `validatePieceLayers` is the one defined first. -/
theorem transient_validatePieceLayers_agrees {D : Type} [DecidableEq D] (E : HashEnv D)
    (fuel : Nat) (root : D) (layer : merkle_layer D) (st : CallState D) :
    forgetCalls (Transient.validatePieceLayers (CallEnv.ofHashEnv E) fuel root layer st) =
      validatePieceLayers E fuel root layer st.toMemoState := by
  unfold Transient.validatePieceLayers validatePieceLayers
  rw [← transient_reduceMerkleLayerToRoot_agrees E fuel layer st]
  apply forgetCalls_andThen
  intro found s
  rfl

end Merkle
